import Mathlib

/-!
# Verification of the dixlib theater / future engine

Shallow embedding of the core subsystems of the repository:

* `std.future` cue engine (`src/unnamed/part_012`): one-shot event trees with
  leaves, capture decorators, families (all/any/race/settle) and the commit
  protocol that produces rollback closures; the bounded `Exchange`.
* `std.theater` internals: `ExclusiveStatus` / `Destiny` lifecycle primitives
  (`intern/lifecycle.ts`), the `Gig` job state machine (`intern/gig.ts`),
  the `Agent` actor (`intern/agent.ts`) and the stage scheduler
  (`intern/agent.ts`, stage section).

Every definition is translated from the TypeScript source; JavaScript's
untyped signal objects `{prompt}` / `{blooper}` are modelled by the `Signal`
inductive below, with the empty object `{}` rendered as `Signal.prompt .undefV`
(the code only ever tests truthiness of `signal.blooper`, so any signal
without a blooper behaves as a prompt).
-/

set_option maxHeartbeats 1000000

namespace Dixlib

/-- JavaScript values that flow through signals in the modelled scenarios. -/
inductive Val where
  | undefV : Val
  | nat (n : Nat) : Val
  | str (s : String) : Val
  | arr (vs : List Val) : Val
  /-- An `AggregateError` with its error list and message (`AnyEvent`). -/
  | agg (errs : List Val) (msg : String) : Val
  /-- An `Error` built by `fx.erroneous` from a reason. -/
  | err (reason : String) : Val
  /-- An embedded signal object (elements of a `SettleEvent` result). -/
  | sigPrompt (v : Val) : Val
  | sigBlooper (e : Val) : Val

/-- A `Future.Signal`: `{prompt}` on success, `{blooper}` on failure.
The code branches on the truthiness of `signal.blooper` only. -/
inductive Signal where
  | prompt (v : Val) : Signal
  | blooper (e : Val) : Signal

/-- Embed a signal as a value (used by `SettleEvent` result arrays). -/
def Signal.toVal : Signal → Val
  | .prompt v => .sigPrompt v
  | .blooper e => .sigBlooper e

/-! ## `ExclusiveStatus` (src/src/std.theater/intern/lifecycle.ts)

Intrusive circular doubly-linked membership lists.  Members and statuses are
identified by numeric ids; the hidden symbol fields `exclusiveCurrent`,
`exclusivePrevious` and `exclusiveNext` become the maps `current`, `prev` and
`next`, and each status owns `revision`, `size` and `head` exactly as the
class fields do. -/

/-- Per-status data of `ExclusiveStatus`: revision counter, member count and
the first doubly-linked member. -/
structure StatusData where
  revision : Nat
  size : Nat
  head : Option Nat
deriving Repr, DecidableEq

/-- Global linkage state: the intrusive fields of all destiny objects plus the
data of all statuses. -/
structure LinkState where
  current : Nat → Option Nat
  prev : Nat → Option Nat
  next : Nat → Option Nat
  statuses : Nat → StatusData

namespace LinkState

def setCurrent (m : Nat) (v : Option Nat) (st : LinkState) : LinkState :=
  { st with current := fun x => if x = m then v else st.current x }

def setPrev (m : Nat) (v : Option Nat) (st : LinkState) : LinkState :=
  { st with prev := fun x => if x = m then v else st.prev x }

def setNext (m : Nat) (v : Option Nat) (st : LinkState) : LinkState :=
  { st with next := fun x => if x = m then v else st.next x }

def setStatus (sid : Nat) (d : StatusData) (st : LinkState) : LinkState :=
  { st with statuses := fun x => if x = sid then d else st.statuses x }

/-- `ExclusiveStatus.#deleteMember`: unlink `m` from status `sid`.
Mirrors the source: bump revision, decrement size, either clear the head or
splice the neighbours together and advance the head past `m`. -/
def deleteMember (sid m : Nat) (st : LinkState) : LinkState :=
  let d := st.statuses sid
  if d.size - 1 = 0 then
    st.setStatus sid ⟨d.revision + 1, 0, none⟩
  else
    let nxt := st.next m
    let prv := st.prev m
    let st := match nxt with
      | some n => st.setPrev n prv
      | none => st
    let st := match prv with
      | some p => st.setNext p nxt
      | none => st
    let newHead := if d.head = some m then nxt else d.head
    st.setStatus sid ⟨d.revision + 1, d.size - 1, newHead⟩

/-- `ExclusiveStatus.add`: no-op when the member is already in this status,
otherwise unlink from the previous status and link at the tail. -/
def add (sid m : Nat) (st : LinkState) : LinkState :=
  if st.current m = some sid then
    st
  else
    let st := match st.current m with
      | some old => st.deleteMember old m
      | none => st
    let d := st.statuses sid
    let st := st.setCurrent m (some sid)
    match d.head with
    | some h =>
        let st := st.setNext m (some h)
        let prv := st.prev h
        let st := st.setPrev m prv
        let st := match prv with
          | some p => st.setNext p (some m)
          | none => st
        let st := st.setPrev h (some m)
        st.setStatus sid ⟨d.revision + 1, d.size + 1, d.head⟩
    | none =>
        let st := st.setNext m (some m)
        let st := st.setPrev m (some m)
        st.setStatus sid ⟨d.revision + 1, d.size + 1, some m⟩

end LinkState

/-! ## `Gig` cancellation (`Gig.stop`, src/src/std.theater/intern/gig.ts) -/

/-- The fields of a `Gig` relevant to `stop`/`finish`/`isInert`.
`status` is the name of the `ExclusiveStatus` the gig is linked into
(`none` when unlinked); `rollback` records whether a rollback closure is
currently held (`isAnticipated`); `controller` whether the controller cue is
set; `scene`/`progress` mirror the remaining private fields. -/
structure GigState where
  fate : Option Signal
  agent : Option Nat
  selector : Option String
  parameters : Option (List Val)
  scene : Bool
  progress : Option Signal
  rollback : Bool
  controller : Bool
  status : Option String

namespace GigState

/-- `Gig.isInert`: no status and still owning an agent reference. -/
def isInert (g : GigState) : Bool :=
  g.status = none && g.agent ≠ none

/-- `Gig.isAnticipated`: a rollback closure is held. -/
def isAnticipated (g : GigState) : Bool :=
  g.rollback

/-- `Gig.finish` (protected override plus `Destiny.finish`): clear every field
except the job handle, unlink from the current status, and seal the fate. -/
def finish (signal : Signal) (_g : GigState) : GigState :=
  { fate := some signal
    agent := none, selector := none, parameters := none
    scene := false, progress := none, rollback := false, controller := false
    status := none }

/-- `Gig.stop(reason)`: when the fate is not yet sealed, capture the rollback,
finish with a blooper built from the reason, and invoke the rollback if one
was held.  The returned flag records whether the rollback was invoked. -/
def stop (reason : String) (g : GigState) : GigState × Bool :=
  if g.fate.isSome then
    (g, false)
  else
    ((g.finish (.blooper (.err reason))), g.rollback)

end GigState

/-! ## `surprise` (src/src/std.theater/intern/gig.ts, lines 24-47) and
`isEmployable` (src/src/std.theater/intern/agent.ts, lines 23-26) -/

/-- The agent fields consulted by `surprise` and `isEmployable`. -/
structure AgentFlags where
  suspended : Bool
  initializing : Bool
deriving Repr, DecidableEq

/-- `isEmployable(actor)`: neither initializing nor suspended. -/
def isEmployable (a : AgentFlags) : Bool :=
  !a.initializing && !a.suspended

/-- Result of a `surprise` call: a thrown precondition / protocol error, the
final prompt, or the re-raised blooper of the job's fate. -/
inductive SurpriseResult where
  | error (msg : String) : SurpriseResult
  | value (v : Val) : SurpriseResult
  | raise (e : Val) : SurpriseResult

/-- `surprise(job)`: the precondition checks and fate dispatch, translated
line by line.  `showing` is `isShowing()`; `soloFate` is the fate of the gig
after `performSolo` drove the single immediate interrupt (`none` when the
scene did not finish in one stage performance). -/
def surprise (showing : Bool) (gig : GigState) (agent : AgentFlags)
    (soloFate : Option Signal) : SurpriseResult :=
  if showing then .error "theater must be closed when surprising"
  else if !gig.isInert then .error "surprising job must be inert"
  else if agent.suspended then .error "surprising actor must be employable"
  else match soloFate with
    | some (.blooper e) => .raise e
    | some (.prompt v) => .value v
    | none => .error "surprise job must finish in one stage performance"

/-! ## `Agent.post` (src/src/std.theater/intern/agent.ts, lines 236-261) -/

/-- The queue a posted gig lands in. -/
inductive Queue where
  | postponed | agenda | workload
deriving Repr, DecidableEq

/-- The agent fields consulted by `post`: sealed fate, the id of the
initialization gig (while initializing), and the three gig queues
(`ExclusiveStatus` membership lists in insertion order). -/
structure PostAgent where
  fate : Option Signal
  initializing : Option Nat
  workload : List Nat
  agenda : List Nat
  postponed : List Nat

/-- The gig fields consulted by `post`: its id, sealed fate, whether it
belongs to this agent, and `isAnticipated` (rollback held). -/
structure PostGig where
  id : Nat
  fate : Option Signal
  belongs : Bool
  anticipated : Bool

/-- What `post` did: threw a protocol error, stopped the gig on a ghost
agent, or inserted it into a queue and renegotiated. -/
inductive PostOutcome where
  | threw (msg : String)
  | stopped
  | queued (q : Queue) (negotiated : Bool)
deriving Repr, DecidableEq

/-- `ExclusiveStatus.add` at the queue level: unlink the gig from every queue
and link it at the tail of the target queue. -/
def PostAgent.enqueue (a : PostAgent) (q : Queue) (gid : Nat) : PostAgent :=
  let w := a.workload.filter (· ≠ gid)
  let ag := a.agenda.filter (· ≠ gid)
  let po := a.postponed.filter (· ≠ gid)
  match q with
  | .workload => { a with workload := w ++ [gid], agenda := ag, postponed := po }
  | .agenda => { a with workload := w, agenda := ag ++ [gid], postponed := po }
  | .postponed => { a with workload := w, agenda := ag, postponed := po ++ [gid] }

/-- `Agent.post(gig)`, translated line by line. -/
def PostAgent.post (a : PostAgent) (g : PostGig) : PostAgent × PostOutcome :=
  if g.fate.isSome then
    (a, .threw "job cannot be posted after its fate has been sealed")
  else if !g.belongs then
    (a, .threw "posted job must belong to performing actor")
  else if a.fate.isSome then
    (a, .stopped)
  else
    let q : Queue :=
      match a.initializing with
      | some initId => if g.id ≠ initId then .postponed
                       else if g.anticipated then .agenda else .workload
      | none => if g.anticipated then .agenda else .workload
    (a.enqueue q g.id, .queued q true)

/-! ## Supervision trees: `Agent.suspend`, `Agent.bury` and `#reset`
(src/src/std.theater/intern/agent.ts)

An agent is modelled with its two lifecycle flags and its team (the values of
the `#team` map, in insertion order).  `suspend` recursively suspends the team
first and then the agent itself, throwing (modelled as `none`) on a ghost or
on double suspension.  `bury` runs `#reset` — which requires suspension and
buries every team member — and then seals the agent's own destiny with an
empty team.  The graveyard list collects the final state of every agent that
was buried, which is how `#manageBlooper`'s punish/escalate verdicts dispose
of an offender and its transitive team. -/

/-- An agent with its `#suspended` flag, sealed fate (`buried`), and team. -/
inductive AgentT where
  | mk (suspended : Bool) (buried : Bool) (team : List AgentT)

namespace AgentT

def suspended : AgentT → Bool
  | .mk s _ _ => s

def buried : AgentT → Bool
  | .mk _ b _ => b

def team : AgentT → List AgentT
  | .mk _ _ ts => ts

mutual
/-- `Agent.suspend`: ghost check, double-suspension check, recursively
suspend all team members, then set the flag. -/
def suspendA : AgentT → Option AgentT
  | .mk s b ts =>
    if b then none
    else if s then none
    else match suspendTeam ts with
      | some ts2 => some (.mk true b ts2)
      | none => none

def suspendTeam : List AgentT → Option (List AgentT)
  | [] => some []
  | t :: ts =>
    match suspendA t, suspendTeam ts with
    | some t2, some ts2 => some (t2 :: ts2)
    | _, _ => none
end

mutual
/-- `Agent.bury`: run `#reset` (ghost check, suspension requirement, bury all
team members) and finish with an empty team.  Returns the agent's final state
together with the graveyard: the final states of every buried agent in the
subtree, in burial order. -/
def buryA : AgentT → Option (AgentT × List AgentT)
  | .mk s b ts =>
    if b then none
    else if !s then none
    else match buryTeam ts with
      | some gy => some (.mk s true [], gy ++ [.mk s true []])
      | none => none

def buryTeam : List AgentT → Option (List AgentT)
  | [] => some []
  | t :: ts =>
    match buryA t, buryTeam ts with
    | some (_, gy1), some gy2 => some (gy1 ++ gy2)
    | _, _ => none
end

mutual
/-- The whole subtree is neither suspended nor buried (a freshly running
supervision subtree). -/
def allFresh : AgentT → Bool
  | .mk s b ts => !s && !b && allFreshTeam ts

def allFreshTeam : List AgentT → Bool
  | [] => true
  | t :: ts => allFresh t && allFreshTeam ts
end

mutual
/-- Every agent in the subtree is suspended. -/
def allSuspended : AgentT → Bool
  | .mk s _ ts => s && allSuspendedTeam ts

def allSuspendedTeam : List AgentT → Bool
  | [] => true
  | t :: ts => allSuspended t && allSuspendedTeam ts
end

mutual
/-- Number of agents in the subtree. -/
def countA : AgentT → Nat
  | .mk _ _ ts => 1 + countTeam ts

def countTeam : List AgentT → Nat
  | [] => 0
  | t :: ts => countA t + countTeam ts
end

mutual
/-- `markSusp` is the expected result of a successful recursive suspension:
every `#suspended` flag in the subtree is set. -/
def markSusp : AgentT → AgentT
  | .mk _ b ts => .mk true b (markSuspTeam ts)

def markSuspTeam : List AgentT → List AgentT
  | [] => []
  | t :: ts => markSusp t :: markSuspTeam ts
end

mutual
/-- No agent in the subtree has a sealed fate. -/
def noneBuried : AgentT → Bool
  | .mk _ b ts => !b && noneBuriedTeam ts

def noneBuriedTeam : List AgentT → Bool
  | [] => true
  | t :: ts => noneBuried t && noneBuriedTeam ts
end

/-- `#manageBlooper` for a `punish` or `escalate` verdict: the offender is
suspended (together with its transitive team) and subsequently buried by its
manager through a fresh `buryMember` gig. -/
def punishFlow (offender : AgentT) : Option (AgentT × List AgentT) :=
  match suspendA offender with
  | some t => buryA t
  | none => none

end AgentT

/-! ## Stage scheduler (`handleInterrupt`, src/src/std.theater/intern/agent.ts,
stage section)

The scheduler state is restricted to the two exclusive statuses the claim is
about: `active` (gigs on stage) and `busy` (agents on stage), plus the
`handling` flag.  One playlist entry carries the gig, its agent and an oracle
describing what `takeStage` does to these two statuses: every non-throwing
path of `Gig.takeStage` removes the gig from `active` (via `Destiny.finish`'s
status delete or via `post`'s move to workload/agenda) and moves the agent
out of `busy` (via `negotiate`); a thrown error propagates out of the loop
into the `finally` block, which clears both statuses. -/

/-- The stage-related scheduler state. -/
structure StageState where
  active : List Nat
  busy : List Nat
  handling : Bool
deriving Repr, DecidableEq

/-- Oracle for one `takeStage` call: the gig finishes (fate sealed), reposts
(moved to workload or agenda), or throws out of the performance. -/
inductive StepOutcome where
  | finishes | reposts | throws
deriving Repr, DecidableEq

/-- One playlist entry: the gig, its agent, the `takeStage` outcome, and
whether the interrupt's time budget is exhausted after this gig. -/
structure PlayEntry where
  gig : Nat
  agent : Nat
  outcome : StepOutcome
  budgetZero : Bool
deriving Repr, DecidableEq

namespace StageState

/-- Effect of `gig.takeStage()` on the `active`/`busy` statuses: on every
non-throwing path the gig leaves `active` and its agent leaves `busy`. -/
def takeStageEffect (e : PlayEntry) (st : StageState) : Option StageState :=
  match e.outcome with
  | .throws => none
  | _ => some { st with
      active := st.active.filter (· ≠ e.gig)
      busy := st.busy.filter (· ≠ e.agent) }

/-- The `finally` block of `handleInterrupt`: clear both stage statuses and
release the `handling` flag. -/
def clearStage (st : StageState) : StageState :=
  { st with active := [], busy := [], handling := false }

/-- The playlist loop of `handleInterrupt`, returning every intermediate
state in order: the emptiness guard, the two adds, the `takeStage` effect,
the budget check, and the `finally` clear on every exit path. -/
def stageLoop : List PlayEntry → StageState → List StageState
  | [], st => [clearStage st]
  | e :: rest, st =>
    if st.active ≠ [] ∨ st.busy ≠ [] then
      -- "stage must be empty when taking stage" thrown; `finally` clears
      [clearStage st]
    else
      let st1 := { st with active := st.active ++ [e.gig] }
      let st2 := { st1 with busy := st1.busy ++ [e.agent] }
      st1 :: st2 ::
        (match takeStageEffect e st2 with
         | none =>
           -- `takeStage` threw; the exception unwinds through `finally`
           [clearStage st2]
         | some st3 =>
           if e.budgetZero then
             -- budget exhausted: emptiness is asserted, then the loop breaks
             [st3, clearStage st3]
           else
             st3 :: stageLoop rest st3)

/-- `handleInterrupt`: nested-interrupt guard, then the playlist loop.  The
result is the trace of scheduler states, starting from the state in which
handling begins. -/
def handleInterrupt (entries : List PlayEntry) (st : StageState) :
    List StageState :=
  if st.handling then [st]  -- "cannot nest interrupt occurences" thrown
  else
    let st0 := { st with handling := true }
    st0 :: stageLoop entries st0

end StageState

/-! ## Exchange (src/unnamed/part_012, `class Exchange`)

`produce(item)` and `consume()` each build a leaf cue via `once(begin, end)`;
in the modelled scenarios every such cue is committed directly
(`commit(cue, effect)`), so a revelation of the leaf immediately fires the
corresponding effect.  `LeafEvent.unblock` runs the `end` handler *before*
the revelation propagates, so a woken producer pushes its item into the
buffer before the waking consumer continues.  Cues are identified by numeric
ids; per-cue state tracks the cue status, the signals delivered to the commit
effect, the captured `overflowing` flag of the producer's `begin` closure,
and the captured `item`. -/

/-- Cue lifecycle: `Unused → Pending → Used` (revealed or cancelled). -/
inductive Status where
  | unused | pending | used
deriving Repr, DecidableEq

/-- The fields of `class Exchange`: capacity (`none` = `Infinity`), the item
buffer, and the two queues of blocked revelations (cue ids, FIFO). -/
structure ExchangeState where
  capacity : Option Nat
  items : List Val
  underflow : List Nat
  overflow : List Nat

/-- `items.length < capacity` with `Infinity` as the default capacity. -/
def ExchangeState.hasRoom (ex : ExchangeState) : Bool :=
  match ex.capacity with
  | none => true
  | some k => ex.items.length < k

/-- A world of exchange cues: the exchange plus per-cue bookkeeping. -/
structure XWorld where
  ex : ExchangeState
  status : Nat → Status
  effects : Nat → List Signal
  overflowing : Nat → Bool
  itemOf : Nat → Val

namespace XWorld

def setStatus (c : Nat) (v : Status) (w : XWorld) : XWorld :=
  { w with status := fun x => if x = c then v else w.status x }

def pushEffect (c : Nat) (s : Signal) (w : XWorld) : XWorld :=
  { w with effects := fun x => if x = c then w.effects x ++ [s] else w.effects x }

def setOverflowing (c : Nat) (w : XWorld) : XWorld :=
  { w with overflowing := fun x => if x = c then true else w.overflowing x }

def setItem (c : Nat) (v : Val) (w : XWorld) : XWorld :=
  { w with itemOf := fun x => if x = c then v else w.itemOf x }

/-- Reveal a committed producer cue (`reveal({})` from `consume`'s wake or
from `produce`'s own begin).  `Event.reveal` demands a pending cue; then
`LeafEvent.unblock` runs `end(true)` — which pushes the captured item when
the producer was blocked in the overflow queue — and finally the revelation
reaches the commit effect. -/
def revealProducer (c : Nat) (w : XWorld) : Option XWorld :=
  if w.status c ≠ .pending then none
  else
    let w := w.setStatus c .used
    let w := if w.overflowing c then
        { w with ex := { w.ex with items := w.ex.items ++ [w.itemOf c] } }
      else w
    some (w.pushEffect c (.prompt .undefV))

/-- Reveal a committed consumer cue with a signal (`consume`'s `once` has no
`end` handler). -/
def revealConsumer (c : Nat) (s : Signal) (w : XWorld) : Option XWorld :=
  if w.status c ≠ .pending then none
  else some ((w.setStatus c .used).pushEffect c s)

/-- Helper: update the overflow queue. -/
def modifyOverflow (f : List Nat → List Nat) (w : XWorld) : XWorld :=
  { w with ex := { w.ex with overflow := f w.ex.overflow } }

/-- `commit(exchange.produce(item), effect)`: the leaf cue `c` blocks
(becoming pending) and its `begin` runs: wake the oldest blocked consumer,
or buffer the item, or join the overflow queue. -/
def commitProduce (c : Nat) (item : Val) (w : XWorld) : Option XWorld :=
  let w := (w.setStatus c .pending).setItem c item
  match w.ex.underflow with
  | u :: rest =>
      -- reveal item to longest waiting consumer, then reveal self with {}
      match w.revealConsumer u (.prompt item) with
      | some w2 =>
          let w3 := { w2 with ex := { w2.ex with underflow := rest } }
          w3.revealProducer c
      | none => none
  | [] =>
      if w.ex.hasRoom then
        -- buffer item for future consumer
        ({ w with ex := { w.ex with items := w.ex.items ++ [item] } }).revealProducer c
      else
        -- add pending overflow revelation
        some ((w.setOverflowing c).modifyOverflow (· ++ [c]))

/-- `commit(exchange.consume(), effect)`: the leaf cue `c` blocks and its
`begin` runs: wake the oldest blocked producer (forcing it to spill its item
into the buffer), then take the first buffered item, or join the underflow
queue. -/
def commitConsume (c : Nat) (w : XWorld) : Option XWorld :=
  let w := w.setStatus c .pending
  let woken : Option XWorld :=
    match w.ex.overflow with
    | p :: rest =>
        match ({ w with ex := { w.ex with overflow := rest } }).revealProducer p with
        | some w2 => some w2
        | none => none
    | [] => some w
  match woken with
  | none => none
  | some w2 =>
      match w2.ex.items with
      | v :: restItems =>
          ({ w2 with ex := { w2.ex with items := restItems } }).revealConsumer c (.prompt v)
      | [] =>
          some { w2 with ex := { w2.ex with underflow := w2.ex.underflow ++ [c] } }

/-- The rollback of a producer's commit: cancel the cue if it is still
pending.  `LeafEvent.unblock` runs `end(false)`, whose body
`if (revealing && overflowing)` does nothing — in particular the blocked
revelation is *not* removed from the overflow queue. -/
def cancelProduce (c : Nat) (w : XWorld) : XWorld :=
  if w.status c = .pending then w.setStatus c .used else w

end XWorld

/-! ## The cue engine (src/unnamed/part_012)

A committed hint is a tree of events: leaves (`LeafEvent`, created by
`once`/`spark`/`timeout`), capture decorators (`CaptureEvent`) and families
(`AllEvent`/`AnyEvent`/`RaceEvent`/`SettleEvent`), rooted in a `CommitEvent`.
A leaf's user-supplied `begin` either reveals a signal synchronously while it
blocks (`spark`, an elapsed timeout, an immediately served exchange
operation) or leaves the cue pending; both behaviours are captured by the
`sync` field of `HintT.leaf`.

Runtime state is addressed by paths (`List Nat` of child indexes from the
root hint).  Per node we track the cue status, the `end(true)`/`end(false)`
call counts of leaves, the decorator's `#event`-consumed flag
(`childPropagated`), the family's recorded signals (`#prompts`/`#bloopers`/
`#signals`, keyed by child index) and the number of children created so far
by `makeOffspring` (the family's `#events` set grows lazily while
`commit`'s loop pulls leaves out of `flatten`, so `this.size` counts only
the children created up to that moment).  Thrown errors are modelled as
`none`; the states reached after a throw are only consumed by the `aborted`
branch of `commitRun`, which the verified claims do not inspect. -/

/-- The family flavours. -/
inductive FamKind where
  | allF | anyF | raceF | settleF
deriving Repr, DecidableEq

/-- Event-tree shapes of committed hints. -/
inductive HintT where
  /-- `once(begin, end?)`: `sync = some s` when `begin` reveals `s`
  synchronously while blocking, `none` when the cue stays pending. -/
  | leaf (sync : Option Signal)
  /-- `capture(hint, trap)`. -/
  | capture (trap : Signal → Signal) (child : HintT)
  /-- A family event over its child hints. -/
  | family (k : FamKind) (children : List HintT)

mutual
/-- Shapes that the surface constructors can actually build: the
`FamilyEvent` constructor throws unless it receives at least two hints. -/
def goodShape : HintT → Bool
  | .leaf _ => true
  | .capture _ c => goodShape c
  | .family _ cs => 2 ≤ cs.length && goodKids cs

def goodKids : List HintT → Bool
  | [] => true
  | c :: rest => goodShape c && goodKids rest
end

/-- `spark(signal)`: `once(reveal => reveal(signal))`. -/
def spark (s : Signal) : HintT := .leaf (some s)

/-- A leaf whose `begin` leaves the cue pending (e.g. `timeout(ms)` with a
positive delay, or a blocked exchange operation). -/
def pendingLeaf : HintT := .leaf none

/-- `singletonPromptTrap` (used by `all` on a single hint). -/
def singletonPromptTrap : Signal → Signal
  | .blooper e => .blooper e
  | .prompt v => .prompt (.arr [v])

/-- `singletonSignalTrap` (used by `settle` on a single hint). -/
def singletonSignalTrap (s : Signal) : Signal := .prompt (.arr [s.toVal])

/-- `capture(hint, trap)`. -/
def captureH (h : HintT) (trap : Signal → Signal) : HintT := .capture trap h

/-- `all(hints)` with its 0/1-child normalisations. -/
def allH : List HintT → HintT
  | [] => spark (.prompt (.arr []))
  | [h] => .capture singletonPromptTrap h
  | hs => .family .allF hs

/-- `any(hints)` with its 0/1-child normalisations. -/
def anyH : List HintT → HintT
  | [] => spark (.blooper (.agg [] "at least one hint is required for any prompt"))
  | [h] => .capture (fun s => s) h
  | hs => .family .anyF hs

/-- `race(hints)` with its 0/1-child normalisations. -/
def raceH : List HintT → HintT
  | [] => .leaf none
  | [h] => .capture (fun s => s) h
  | hs => .family .raceF hs

/-- `settle(hints)` with its 0/1-child normalisations. -/
def settleH : List HintT → HintT
  | [] => spark (.prompt (.arr []))
  | [h] => .capture singletonSignalTrap h
  | hs => .family .settleF hs

/-- Runtime state of one event node. -/
structure NodeSt where
  status : Status
  /-- Number of `end(true, cue)` runs of a leaf. -/
  endTrue : Nat
  /-- Number of `end(false, cue)` runs of a leaf. -/
  endFalse : Nat
  /-- A decorator's `#event` has been consumed by `propagate`. -/
  childPropagated : Bool
  /-- A family's recorded signals, keyed by child index. -/
  recorded : List (Nat × Signal)
  /-- Number of children created so far by the family's `makeOffspring`. -/
  created : Nat

/-- A fresh, unused node. -/
def NodeSt.init : NodeSt := ⟨.unused, 0, 0, false, [], 0⟩

/-- Runtime state of a committed hint tree, plus the `CommitEvent` at the
root: its own cue status, whether its `#event` child slot is still set, and
the list of signals delivered to the external `effect`. -/
structure CState where
  nodes : List Nat → NodeSt
  commitStatus : Status
  commitEventChild : Bool
  effects : List Signal

namespace CState

def setNode (p : List Nat) (f : NodeSt → NodeSt) (st : CState) : CState :=
  { st with nodes := fun q => if q = p then f (st.nodes q) else st.nodes q }

def stat (st : CState) (p : List Nat) : Status := (st.nodes p).status

end CState

/-- The sub-shape at a path. -/
def subShape : HintT → List Nat → Option HintT
  | h, [] => some h
  | .leaf _, _ :: _ => none
  | .capture _ c, i :: p => if i = 0 then subShape c p else none
  | .family _ cs, i :: p =>
      match cs.get? i with
      | some c => subShape c p
      | none => none

/-- The prompt field of a recorded signal (`signal.prompt`). -/
def promptVal : Signal → Val
  | .prompt v => v
  | .blooper _ => .undefV

/-- The blooper field of a recorded signal (`signal.blooper`). -/
def blooperVal : Signal → Val
  | .blooper e => e
  | .prompt _ => .undefV

/-- `[...loop.map(this.offspring.values(), event => prompts.get(event))]`:
the recorded entries emitted in child-creation order. -/
def collectRecorded (created : Nat) (rec : List (Nat × Signal))
    (f : Signal → Val) : List Val :=
  (List.range created).filterMap fun j => (rec.lookup j).map f

mutual
/-- `Event.unblock(revealing, parent)` with its subclass overrides,
cascading top-down: a leaf runs its `end` handler once; a decorator cancels
its still-held child when not revealing; a family cancels every still-pending
created child (this happens for revelation as well as cancellation) and
clears its recorded signals.  Unblocking a non-pending node models the
"cannot unblock with invalid parent" throw as `none`. -/
def unblockNode (revealing : Bool) (h : HintT) (p : List Nat) (st : CState) :
    Option CState :=
  match h with
  | .leaf _ =>
    if (st.nodes p).status ≠ .pending then none
    else some <| st.setNode p fun n =>
      { n with status := .used
               endTrue := if revealing then n.endTrue + 1 else n.endTrue
               endFalse := if revealing then n.endFalse else n.endFalse + 1 }
  | .capture _ c =>
    if (st.nodes p).status ≠ .pending then none
    else if revealing then
      -- `#event` is consumed together with the unblock: `propagate` clears it
      -- right before `decorate` reveals this capture, and nothing reads it in
      -- between, so the two updates are fused here.
      some (st.setNode p fun n =>
        { n with status := .used, childPropagated := true })
    else if (st.nodes p).childPropagated then none -- `#event` already void
    else
      unblockNode false c (p ++ [0])
        (st.setNode p fun n =>
          { n with status := .used, childPropagated := false })
  | .family _ cs =>
    if (st.nodes p).status ≠ .pending then none
    else
      unblockKids cs 0 (st.nodes p).created p
        (st.setNode p fun n => { n with status := .used, recorded := [] })

/-- The loop of `FamilyEvent.unblock`: cancel each created child that is
still pending, in creation order. -/
def unblockKids (cs : List HintT) (i created : Nat) (p : List Nat)
    (st : CState) : Option CState :=
  match cs with
  | [] => some st
  | c :: rest =>
    if i < created then
      if (st.nodes (p ++ [i])).status = .pending then
        match unblockNode false c (p ++ [i]) st with
        | some st2 => unblockKids rest (i + 1) created p st2
        | none => none
      else unblockKids rest (i + 1) created p st
    else unblockKids rest (i + 1) created p st
end

/-- `Event.reveal` at the node addressed by the *reversed* path `rp`
(`rp.reverse` is the path from the root hint): unblock the node with
`revealing = true`, then `parent.propagate(child, signal)` — the
`CommitEvent` fires the effect, a `CaptureEvent` reveals the trapped signal,
and a family either records the signal or reveals an aggregate, following
`AllEvent`/`AnyEvent`/`RaceEvent`/`SettleEvent.revealFrom` with
`this.size` equal to the number of children created so far.  Every throw is
`none`. -/
def reveal (h : HintT) (rp : List Nat) (s : Signal) (st : CState) :
    Option CState :=
  let p := rp.reverse
  match subShape h p with
  | none => none
  | some hp =>
    match unblockNode true hp p st with
    | none => none
    | some st1 =>
      match rp with
      | [] =>
        -- parent is the CommitEvent
        if !st1.commitEventChild then none
        else if st1.commitStatus ≠ .pending then none
        else some { st1 with
          commitEventChild := false
          commitStatus := .used
          effects := st1.effects ++ [s] }
      | i :: rest =>
        let q := rest.reverse
        match subShape h q with
        | some (.capture trap _) =>
          let nq := st1.nodes q
          if nq.status ≠ .pending then none        -- `#event` is void
          else if nq.childPropagated then none     -- `child !== this.#event`
          else
            -- the `#event` slot is consumed by the revelation of this capture
            -- (fused into its unblock inside the recursive `reveal`)
            reveal h rest (trap s) st1
        | some (.family k _) =>
          let nq := st1.nodes q
          if nq.status ≠ .pending then none        -- `#events` is void
          else if !(decide (i < nq.created)) then none -- not a family member
          else
            match k with
            | .raceF => reveal h rest s st1
            | .allF =>
              match s with
              | .blooper _ => reveal h rest s st1
              | .prompt _ =>
                let rec1 := nq.recorded ++ [(i, s)]
                let st2 := st1.setNode q fun n => { n with recorded := rec1 }
                if rec1.length = nq.created then
                  reveal h rest
                    (.prompt (.arr (collectRecorded nq.created rec1 promptVal)))
                    st2
                else some st2
            | .anyF =>
              match s with
              | .prompt _ => reveal h rest s st1
              | .blooper _ =>
                let rec1 := nq.recorded ++ [(i, s)]
                let st2 := st1.setNode q fun n => { n with recorded := rec1 }
                if rec1.length = nq.created then
                  reveal h rest
                    (.blooper (.agg (collectRecorded nq.created rec1 blooperVal)
                      (s!"burnout after {nq.created} attempts for any signal")))
                    st2
                else some st2
            | .settleF =>
              let rec1 := nq.recorded ++ [(i, s)]
              let st2 := st1.setNode q fun n => { n with recorded := rec1 }
              if rec1.length = nq.created then
                reveal h rest
                  (.prompt (.arr (collectRecorded nq.created rec1 Signal.toVal)))
                  st2
              else some st2
        | _ => none

mutual
/-- The leaf paths of a hint tree in `flatten` order (pre-order, children
left to right). -/
def leafSteps : HintT → List Nat → List (List Nat)
  | .leaf _, p => [p]
  | .capture _ c, p => leafSteps c (p ++ [0])
  | .family _ cs, p => kidsSteps cs 0 p

def kidsSteps : List HintT → Nat → List Nat → List (List Nat)
  | [], _, _ => []
  | c :: rest, i, p => leafSteps c (p ++ [i]) ++ kidsSteps rest (i + 1) p
end

/-- Block one node if it is still unused (`Event.block`, reached through
`ParentEvent.flatten` for parents and through the `commit` loop for the
leaf). -/
def blockNodeOnly (q : List Nat) (st : CState) : CState :=
  if (st.nodes q).status = .unused then
    st.setNode q fun n => { n with status := .pending }
  else st

/-- Walk from the node at `p` down along `suffix` to the next leaf pulled out
of `flatten`, blocking every not-yet-blocked event on the way (top-down) and
registering each newly created family child in its parent's `#events` set —
the `created` bump.  The `commit` loop always enters children of one family
in increasing index order, so at the moment child `i` is created the set
holds exactly the children `0 … i-1` and `events.add` makes its size `i + 1`;
`Nat.max` expresses the same size without tracking the traversal position. -/
def blockPath : HintT → List Nat → List Nat → CState → CState
  | _, [], p, st => blockNodeOnly p st
  | .leaf _, _ :: _, p, st => blockNodeOnly p st
  | .capture _ c, i :: r, p, st =>
      blockPath c r (p ++ [i]) (blockNodeOnly p st)
  | .family _ cs, i :: r, p, st =>
      let st1 := blockNodeOnly p st
      let st2 :=
        if (st1.nodes (p ++ [i])).status = .unused then
          st1.setNode p fun n => { n with created := Nat.max n.created (i + 1) }
        else st1
      match cs.get? i with
      | some c => blockPath c r (p ++ [i]) st2
      | none => st2

/-- One iteration of the `commit` loop: pull the next `[leafEvent,
parentEvent]` from `flatten` (blocking the new parents on the way down),
block the leaf — running its `begin` — and let a synchronous revelation
propagate.  A throw during the revelation makes the catch's second
`leafEvent.reveal` fail as well (the leaf was already unblocked), so the
whole flattening aborts (`none`). -/
def flatStep (h : HintT) (p : List Nat) (st : CState) : Option CState :=
  let st1 := blockPath h p [] st
  match subShape h p with
  | some (.leaf (some s)) => reveal h p.reverse s st1
  | some (.leaf none) => some st1
  | _ => none

/-- The `commit` loop over the flattened leaves; stops as soon as the commit
cue is used (`the effect is immediate`). The boolean records the early
stop. -/
def flatGo (h : HintT) (steps : List (List Nat)) (st : CState) :
    Option (CState × Bool) :=
  match steps with
  | [] => some (st, false)
  | p :: rest =>
    match flatStep h p st with
    | none => none
    | some st1 =>
      if st1.commitStatus = .used then some (st1, true)
      else flatGo h rest st1

/-- Result of `commit(hint, effect)`. -/
inductive CommitResult where
  /-- Flattening completed with the commit cue still pending; the rollback
  closure is returned to the caller. -/
  | rollbackReturned (st : CState)
  /-- The effect fired during flattening; `commit` returns `undefined`. -/
  | immediate (st : CState)
  /-- Flattening threw: `rollback()` ran and the effect received a blooper;
  the resulting state is not tracked further. -/
  | aborted

/-- The initial runtime state of `commit`: the `CommitEvent` blocks itself
(`commitEvent.flatten(commitEvent)`) and creates its child event slot. -/
def initialCState : CState :=
  { nodes := fun _ => NodeSt.init
    commitStatus := .pending
    commitEventChild := true
    effects := [] }

/-- `commit(hint, effect)` (src/unnamed/part_012, lines 84-115). -/
def commitRun (h : HintT) : CommitResult :=
  match flatGo h (leafSteps h []) initialCState with
  | none => .aborted
  | some (st, true) => .immediate st
  | some (st, false) => .rollbackReturned st

/-- The rollback closure returned by `commit`, together with
`CommitEvent`'s inherited `unblock(false, commitEvent)`: a no-op unless the
commit cue is still pending; otherwise the commit becomes used and the
cancellation cascades top-down through the still-pending events. -/
def cancelRun (h : HintT) (st : CState) : Option CState :=
  if st.commitStatus ≠ .pending then some st
  else if !st.commitEventChild then none -- `#event` deref on a missing child
  else
    unblockNode false h []
      { st with commitStatus := .used, commitEventChild := false }

/-! ### Specification predicates for the commit/rollback protocol -/

mutual
/-- `suffix` is a valid descent from a node of shape `h` to a leaf. -/
def validPath : HintT → List Nat → Bool
  | .leaf _, suffix => suffix.isEmpty
  | .capture _ c, suffix =>
      match suffix with
      | 0 :: r => validPath c r
      | _ => false
  | .family _ cs, suffix =>
      match suffix with
      | i :: r => validKids cs i r
      | [] => false

def validKids : List HintT → Nat → List Nat → Bool
  | [], _, _ => false
  | c :: rest, i, r =>
      match i with
      | 0 => validPath c r
      | j + 1 => validKids rest j r
end

/-- The structural invariant of one node of a committed tree: a pending leaf
has not run `end(false)`; a pending capture still holds its unconsumed child
event, which is itself pending; a pending family's `#events` set holds
exactly the created children — every child beyond `created` is still
unused. -/
def nodeClause (h : HintT) (q : List Nat) (st : CState) : Prop :=
  match subShape h q with
  | some (.leaf _) =>
      (st.nodes q).status = .pending → (st.nodes q).endFalse = 0
  | some (.capture _ _) =>
      (st.nodes q).status = .pending →
        (st.nodes q).childPropagated = false ∧
        (st.nodes (q ++ [0])).status = .pending
  | some (.family _ _) =>
      (st.nodes q).status = .pending →
        ∀ i, (st.nodes q).created ≤ i → (st.nodes (q ++ [i])).status = .unused
  | none => True

/-- Unused nodes are in their initial state. -/
def FreshUnused (st : CState) : Prop :=
  ∀ q, (st.nodes q).status = .unused → st.nodes q = NodeSt.init

/-- Blocking happens top-down: below an unused node everything is unused. -/
def OrderedBlock (st : CState) : Prop :=
  ∀ q i, (st.nodes q).status = .unused →
    (st.nodes (q ++ [i])).status = .unused

/-- The `CommitEvent` bookkeeping: the root child can only have revealed into
the commit, and either the commit is still pending — no effect has fired and
the `#event` slot is still set — or it is used and the effect fired exactly
once. -/
def CommitOK (st : CState) : Prop :=
  ((st.nodes []).status = .used → st.commitStatus = .used) ∧
  ((st.commitStatus = .pending ∧ st.effects = [] ∧ st.commitEventChild = true) ∨
   (st.commitStatus = .used ∧ ∃ sig, st.effects = [sig]))

/-- The full mid-flattening invariant. -/
def Inv (h : HintT) (st : CState) : Prop :=
  (∀ q, nodeClause h q st) ∧ FreshUnused st ∧ OrderedBlock st ∧ CommitOK st

/-- The family part of the node clause on its own: it is never broken, even
transiently, because a revealing child always has an index below `created`
and the children at or beyond `created` stay unused. -/
def nodeClauseW (h : HintT) (q : List Nat) (st : CState) : Prop :=
  match subShape h q with
  | some (.family _ _) =>
      (st.nodes q).status = .pending →
        ∀ i, (st.nodes q).created ≤ i → (st.nodes (q ++ [i])).status = .unused
  | _ => True

/-- The invariant with the capture/leaf part of the node clause waived at one
path (the node currently being revealed: a pending capture parent sees its
child become used for the instant before the revelation reaches it). -/
def InvX (h : HintT) (ex : List Nat) (st : CState) : Prop :=
  (∀ q, q ≠ ex → nodeClause h q st) ∧ nodeClauseW h ex st ∧
  FreshUnused st ∧ OrderedBlock st ∧ CommitOK st

/-- The part of the node clause that survives while the flattening walk is
standing on the node: a pending capture on the walk still has an unconsumed
`#event` slot and its child has not been used, but the child may not be
blocked yet. -/
def nodeClauseB (h : HintT) (q : List Nat) (st : CState) : Prop :=
  match subShape h q with
  | some (.leaf _) =>
      (st.nodes q).status = .pending → (st.nodes q).endFalse = 0
  | some (.capture _ _) =>
      (st.nodes q).status = .pending →
        (st.nodes q).childPropagated = false ∧
        (st.nodes (q ++ [0])).status ≠ .used
  | some (.family _ _) =>
      (st.nodes q).status = .pending →
        ∀ i, (st.nodes q).created ≤ i → (st.nodes (q ++ [i])).status = .unused
  | none => True

mutual
/-- The still-pending events reachable from the node at `p` through pending
events: exactly the cancellation cascade of the rollback.  A pending
descendant below an already-used event is *not* reached. -/
def reachPend : HintT → List Nat → CState → List (List Nat)
  | h, p, st =>
    if (st.nodes p).status = .pending then
      match h with
      | .leaf _ => [p]
      | .capture _ c => p :: reachPend c (p ++ [0]) st
      | .family _ cs => p :: reachKids cs 0 p st
    else []

def reachKids : List HintT → Nat → List Nat → CState → List (List Nat)
  | [], _, _, _ => []
  | c :: rest, i, p, st =>
      reachPend c (p ++ [i]) st ++ reachKids rest (i + 1) p st
end

/-! ## Concrete scenario inputs -/

/-- A member of status `7`, correctly linked as its only element. -/
def linkW : LinkState :=
  { current := fun x => if x = 3 then some 7 else none
    prev := fun x => if x = 3 then some 3 else none
    next := fun x => if x = 3 then some 3 else none
    statuses := fun x => if x = 7 then ⟨1, 1, some 3⟩ else ⟨0, 0, none⟩ }

/-- A freshly constructed gig: no status, an owning agent, no fate. -/
def inertGig : GigState :=
  { fate := none, agent := some 0, selector := some "work"
    parameters := some [], scene := false, progress := none
    rollback := false, controller := false, status := none }

/-- A gig whose fate is already sealed. -/
def finishedGig : GigState := GigState.finish (.prompt (.nat 1)) inertGig

/-- A gig waiting in the agenda with a pending commitment. -/
def anticipatedGig : GigState :=
  { inertGig with status := some "anticipated", rollback := true }

/-- A live idle agent with no queues. -/
def idleAgent : PostAgent :=
  { fate := none, initializing := none, workload := [], agenda := [], postponed := [] }

/-- An unfinished, non-anticipated gig `5` belonging to its agent. -/
def plainGig : PostGig := { id := 5, fate := none, belongs := true, anticipated := false }

/-- A fresh rendezvous exchange (`exchange(0)`) with unused cues. -/
def exW0 : XWorld :=
  { ex := { capacity := some 0, items := [], underflow := [], overflow := [] }
    status := fun _ => .unused
    effects := fun _ => []
    overflowing := fun _ => false
    itemOf := fun _ => .undefV }

/-- The rendezvous exchange after `commit(produce(7), effect₀)`: the producer
cue `0` blocks in the overflow queue. -/
def exW1 : XWorld := (XWorld.commitProduce 0 (.nat 7) exW0).getD exW0

/-- The rendezvous exchange after the consumer commits `consume()` on cue
`1`. -/
def exW2 : XWorld := (XWorld.commitConsume 1 exW1).getD exW0

/-- The committed hint `all([pendingLeaf, race([spark({prompt:1}),
pendingLeaf])])`: the race reveals synchronously out of its first child while
its second leaf is created afterwards, so the race is already used when
flattening completes, with a still-pending leaf trapped beneath it. -/
def exC1 : HintT :=
  allH [pendingLeaf, raceH [spark (.prompt (.nat 1)), pendingLeaf]]

/-- The state in which `commit(exC1, effect)` returns its rollback. -/
def stC1 : CState :=
  match commitRun exC1 with
  | .rollbackReturned st => st
  | _ => initialCState

/-- The state after invoking that rollback. -/
def stC1' : CState := (cancelRun exC1 stC1).getD initialCState

/-- A committed `race([pendingLeaf, pendingLeaf])`: flattening blocks both
leaves, neither reveals, and the rollback is returned. -/
def exC1w : HintT := raceH [pendingLeaf, pendingLeaf]

/-- The state in which `commit(exC1w, effect)` returns its rollback. -/
def stC1w : CState :=
  match commitRun exC1w with
  | .rollbackReturned st => st
  | _ => initialCState

/-! # Theorems -/

/-- C10: for every `ExclusiveStatus` and member whose current status is
already this status, `add` changes nothing — the member keeps its links (and
hence its position), and the status's size and revision are unchanged,
because `add` returns before relinking when `member[exclusiveCurrent]`
already equals the status. -/
theorem exclusiveStatus_add_idempotent (sid m : Nat) (st : LinkState)
    (h : st.current m = some sid) : LinkState.add sid m st = st := by
  simp [LinkState.add, h]

/-- Witness for `exclusiveStatus_add_idempotent` at the singleton status
`linkW`. -/
theorem exclusiveStatus_add_idempotent_witness :
    linkW.current 3 = some 7 ∧ LinkState.add 7 3 linkW = linkW :=
  ⟨rfl, exclusiveStatus_add_idempotent 7 3 linkW rfl⟩

/-- C2 counterexample: `stop` on an inert gig is *not* a no-op — `Gig.stop`
only checks whether the fate is sealed, so an inert gig (no status, an
owning agent, no fate) is finished with `Blooper(reason)`. -/
theorem stop_inert_gig_not_noop :
    inertGig.isInert = true ∧ inertGig.fate = none ∧
    (GigState.stop "cancel" inertGig).1.fate = some (.blooper (.err "cancel")) :=
  ⟨rfl, rfl, rfl⟩

/-- C2 (amended): `stop(reason)` on a gig whose fate is already sealed is a
no-op; `stop` on any gig without a sealed fate — running, anticipated, or
inert — finishes it with `Blooper(reason)` and invokes the pending rollback
exactly when one is held. -/
theorem gig_stop_spec (g : GigState) (reason : String) :
    (g.fate.isSome = true → GigState.stop reason g = (g, false)) ∧
    (g.fate = none →
      (GigState.stop reason g).1 = GigState.finish (.blooper (.err reason)) g ∧
      (GigState.stop reason g).2 = g.rollback) := by
  refine ⟨fun h => ?_, fun h => ?_⟩ <;> simp [GigState.stop, h]

/-- Witness for `gig_stop_spec`: a sealed gig is left untouched, an
anticipated gig is stopped with its rollback invoked. -/
theorem gig_stop_spec_witness :
    (finishedGig.fate.isSome = true ∧
      GigState.stop "quit job" finishedGig = (finishedGig, false)) ∧
    (anticipatedGig.fate = none ∧
      (GigState.stop "quit job" anticipatedGig).2 = anticipatedGig.rollback) :=
  ⟨⟨rfl, (gig_stop_spec finishedGig "quit job").1 rfl⟩,
   ⟨rfl, ((gig_stop_spec anticipatedGig "quit job").2 rfl).2⟩⟩

/-- C5: the failing input for the code bug in `surprise` — an agent that is
initializing but not suspended is not employable, yet `surprise` only checks
`gig.agent.isSuspended` (its own error message reads "surprising actor must
be employable" and the codebase defines `isEmployable` as neither
initializing nor suspended), so the call proceeds and returns the prompt /
raises the blooper instead of rejecting. -/
theorem surprise_ignores_initializing :
    isEmployable ⟨false, true⟩ = false ∧
    surprise false inertGig ⟨false, true⟩ (some (.prompt (.nat 42)))
      = .value (.nat 42) ∧
    surprise false inertGig ⟨false, true⟩ (some (.blooper (.err "boom")))
      = .raise (.err "boom") :=
  ⟨rfl, rfl, rfl⟩

/-- C4: rendezvous on `exchange(0)` — the producer commits `produce(7)` and
blocks; the consumer commits `consume()`; the consumer's effect fires with
`{prompt: 7}`, the producer's effect fires with `{}`, and both exchange
queues are empty afterwards. -/
theorem exchange_rendezvous :
    XWorld.commitProduce 0 (.nat 7) exW0 = some exW1 ∧
    XWorld.commitConsume 1 exW1 = some exW2 ∧
    exW2.effects 1 = [.prompt (.nat 7)] ∧
    exW2.effects 0 = [.prompt .undefV] ∧
    exW2.ex.overflow = [] ∧ exW2.ex.underflow = [] ∧ exW2.ex.items = [] :=
  ⟨rfl, rfl, rfl, rfl, rfl, rfl, rfl⟩

/-- C3 counterexample: cancelling a blocked `produce` does *not* remove the
producer's pending revelation from the overflow queue — `produce`'s `end`
handler only acts when `revealing && overflowing`, so after the rollback the
cue is used but the queue still holds it. -/
theorem produce_cancel_keeps_overflow_queue :
    XWorld.commitProduce 0 (.nat 7) exW0 = some exW1 ∧
    exW1.ex.overflow = [0] ∧ exW1.status 0 = .pending ∧
    (XWorld.cancelProduce 0 exW1).status 0 = .used ∧
    (XWorld.cancelProduce 0 exW1).ex.overflow = [0] :=
  ⟨rfl, rfl, rfl, rfl, rfl⟩

/-- C9: for every signal with a prompt — indeed for every signal `s` — and
every synchronous trap, committing `capture(spark(s), trap)` is observably
equivalent to committing `spark(trap(s))`: both fire the effect synchronously
with `trap(s)` (no rollback is returned). -/
theorem capture_spark_equiv (s : Signal) (trap : Signal → Signal) :
    ∃ st1 st2,
      commitRun (captureH (spark s) trap) = .immediate st1 ∧
      commitRun (spark (trap s)) = .immediate st2 ∧
      st1.effects = [trap s] ∧ st2.effects = [trap s] :=
  ⟨_, _, rfl, rfl, rfl, rfl⟩

/-- C1 counterexample: `commit(all([pending, race([spark(1), pending])]))`
returns a rollback (the commit cue is still pending after flattening), the
leaf at path `[1,1]` is a descendant whose cue is still pending, yet invoking
the rollback leaves it pending and never runs its `end(false, cue)`: the
cancellation cascade of `FamilyEvent.unblock` skips the already-used race
event, stranding the pending leaf beneath it. -/
theorem commit_rollback_orphan :
    commitRun exC1 = .rollbackReturned stC1 ∧
    cancelRun exC1 stC1 = some stC1' ∧
    (stC1.nodes [1, 1]).status = .pending ∧
    stC1'.commitStatus = .used ∧
    (stC1'.nodes [1, 1]).status = .pending ∧
    (stC1'.nodes [1, 1]).endFalse = 0 :=
  ⟨rfl, rfl, rfl, rfl, rfl, rfl⟩

/-- C7: the posting discipline — for a live agent and an unfinished gig
belonging to it, `post` appends the gig to the postponed queue when the agent
is initializing and the gig is not the initialization gig itself, otherwise
to the agenda when the gig's commitment is still pending (`isAnticipated`),
otherwise to the workload; and in every case the agent is renegotiated. -/
theorem agent_post_discipline (a : PostAgent) (g : PostGig)
    (hA : a.fate = none) (hG : g.fate = none) (hB : g.belongs = true) :
    (∃ q, (PostAgent.post a g).2 = .queued q true) ∧
    (∀ i, a.initializing = some i → g.id ≠ i →
      (PostAgent.post a g).1.postponed.getLast? = some g.id ∧
      (PostAgent.post a g).2 = .queued .postponed true) ∧
    ((a.initializing = none ∨ a.initializing = some g.id) → g.anticipated = true →
      (PostAgent.post a g).1.agenda.getLast? = some g.id ∧
      (PostAgent.post a g).2 = .queued .agenda true) ∧
    ((a.initializing = none ∨ a.initializing = some g.id) → g.anticipated = false →
      (PostAgent.post a g).1.workload.getLast? = some g.id ∧
      (PostAgent.post a g).2 = .queued .workload true) := by
  refine ⟨?_, ?_, ?_, ?_⟩
  · rcases hI : a.initializing with _ | i
    · cases hAnt : g.anticipated
      · exact ⟨.workload, by simp [PostAgent.post, hA, hG, hB, hI, hAnt]⟩
      · exact ⟨.agenda, by simp [PostAgent.post, hA, hG, hB, hI, hAnt]⟩
    · by_cases hNe : g.id = i
      · cases hAnt : g.anticipated
        · exact ⟨.workload, by simp [PostAgent.post, hA, hG, hB, hI, hNe, hAnt]⟩
        · exact ⟨.agenda, by simp [PostAgent.post, hA, hG, hB, hI, hNe, hAnt]⟩
      · exact ⟨.postponed, by simp [PostAgent.post, hA, hG, hB, hI, hNe]⟩
  · intro i hI hNe
    simp [PostAgent.post, PostAgent.enqueue, hA, hG, hB, hI, hNe]
  · rintro (hI | hI) hAnt <;>
      simp [PostAgent.post, PostAgent.enqueue, hA, hG, hB, hI, hAnt]
  · rintro (hI | hI) hAnt <;>
      simp [PostAgent.post, PostAgent.enqueue, hA, hG, hB, hI, hAnt]

/-- Witness for `agent_post_discipline`: posting a plain gig on a live idle
agent queues it on the workload and renegotiates. -/
theorem agent_post_discipline_witness :
    idleAgent.fate = none ∧ plainGig.fate = none ∧ plainGig.belongs = true ∧
    (PostAgent.post idleAgent plainGig).1.workload.getLast? = some 5 ∧
    (PostAgent.post idleAgent plainGig).2 = .queued .workload true :=
  ⟨rfl, rfl, rfl,
    ((agent_post_discipline idleAgent plainGig rfl rfl rfl).2.2.2
      (Or.inl rfl) rfl).1,
    ((agent_post_discipline idleAgent plainGig rfl rfl rfl).2.2.2
      (Or.inl rfl) rfl).2⟩

section XWorldSimp

variable (c : Nat) (v : Status) (s : Signal) (it : Val) (w : XWorld)

@[simp] theorem XWorld.ex_setStatus : (w.setStatus c v).ex = w.ex := rfl
@[simp] theorem XWorld.effects_setStatus : (w.setStatus c v).effects = w.effects := rfl
@[simp] theorem XWorld.overflowing_setStatus :
    (w.setStatus c v).overflowing = w.overflowing := rfl
@[simp] theorem XWorld.itemOf_setStatus : (w.setStatus c v).itemOf = w.itemOf := rfl
@[simp] theorem XWorld.status_setStatus (x : Nat) :
    (w.setStatus c v).status x = if x = c then v else w.status x := rfl

@[simp] theorem XWorld.ex_pushEffect : (w.pushEffect c s).ex = w.ex := rfl
@[simp] theorem XWorld.status_pushEffect : (w.pushEffect c s).status = w.status := rfl
@[simp] theorem XWorld.overflowing_pushEffect :
    (w.pushEffect c s).overflowing = w.overflowing := rfl
@[simp] theorem XWorld.itemOf_pushEffect : (w.pushEffect c s).itemOf = w.itemOf := rfl
@[simp] theorem XWorld.effects_pushEffect (x : Nat) :
    (w.pushEffect c s).effects x
      = if x = c then w.effects x ++ [s] else w.effects x := rfl

end XWorldSimp

/-- C3 (amended): cancelling a blocked `produce` cue leaves the exchange —
in particular the producer (overflow) queue — unchanged (the pending
revelation is *not* removed); and when the still-blocked producer at the head
of the overflow queue is woken by a committed `consume`, its item is pushed
into the buffer and its cue reveals (`{}` reaches the producer's effect),
after which the consumer takes the first buffered item. -/
theorem exchange_blocked_producer_spec (w : XWorld) (c p : Nat)
    (rest : List Nat) (hq : w.ex.overflow = p :: rest)
    (hp : w.status p = .pending) (hov : w.overflowing p = true)
    (hne : c ≠ p) :
    (XWorld.cancelProduce p w).ex = w.ex ∧
    ∃ first restI,
      w.ex.items ++ [w.itemOf p] = first :: restI ∧
      (XWorld.commitConsume c w).isSome = true ∧
      (((XWorld.commitConsume c w).getD exW0).effects p
          = w.effects p ++ [.prompt .undefV]) ∧
      ((XWorld.commitConsume c w).getD exW0).status p = .used ∧
      ((XWorld.commitConsume c w).getD exW0).ex.overflow = rest ∧
      ((XWorld.commitConsume c w).getD exW0).ex.items = restI ∧
      (((XWorld.commitConsume c w).getD exW0).effects c
          = w.effects c ++ [.prompt first]) ∧
      ((XWorld.commitConsume c w).getD exW0).ex.underflow = w.ex.underflow := by
  have hpc : ¬(p = c) := fun hcontra => hne hcontra.symm
  constructor
  · unfold XWorld.cancelProduce XWorld.setStatus
    split <;> rfl
  · rcases e : w.ex.items ++ [w.itemOf p] with _ | ⟨first, restI⟩
    · exact absurd e (by simp)
    · refine ⟨first, restI, rfl, ?_, ?_, ?_, ?_, ?_, ?_, ?_⟩ <;>
        simp [XWorld.commitConsume, XWorld.revealProducer, XWorld.revealConsumer,
          hq, hp, hov, hpc, hne, e]

/-- Witness for `exchange_blocked_producer_spec` on the rendezvous scenario:
the blocked producer `0` of `exW1`. -/
theorem exchange_blocked_producer_spec_witness :
    exW1.ex.overflow = 0 :: [] ∧ exW1.status 0 = .pending ∧
    exW1.overflowing 0 = true ∧
    (XWorld.cancelProduce 0 exW1).ex = exW1.ex :=
  ⟨rfl, rfl, rfl,
    (exchange_blocked_producer_spec exW1 1 0 [] rfl rfl rfl
      (by decide)).1⟩

/-- Structural induction for agent trees: the motive holds at a node once it
holds for every team member. -/
theorem AgentT.inductionOn {motive : AgentT → Prop}
    (ind : ∀ s b ts, (∀ t ∈ ts, motive t) → motive (.mk s b ts)) :
    ∀ t, motive t
  | .mk s b ts => ind s b ts (fun t ht => AgentT.inductionOn ind t)
termination_by t => sizeOf t
decreasing_by
  have := List.sizeOf_lt_of_mem ht
  simp only [AgentT.mk.sizeOf_spec]
  omega

theorem AgentT.suspendTeam_eq (ts : List AgentT)
    (ih : ∀ t ∈ ts, AgentT.allFresh t = true →
      AgentT.suspendA t = some (AgentT.markSusp t))
    (h : AgentT.allFreshTeam ts = true) :
    AgentT.suspendTeam ts = some (AgentT.markSuspTeam ts) := by
  induction ts with
  | nil => simp [AgentT.suspendTeam, AgentT.markSuspTeam]
  | cons t ts ihl =>
    rw [AgentT.allFreshTeam] at h
    simp only [Bool.and_eq_true] at h
    rw [AgentT.suspendTeam, AgentT.markSuspTeam,
      ih t (by simp) h.1, ihl (fun u hu hf => ih u (by simp [hu]) hf) h.2]

theorem AgentT.suspendA_eq :
    ∀ t : AgentT, AgentT.allFresh t = true →
      AgentT.suspendA t = some (AgentT.markSusp t) := by
  refine AgentT.inductionOn (fun s b ts ih h => ?_)
  rw [AgentT.allFresh] at h
  simp only [Bool.and_eq_true] at h
  obtain ⟨⟨hs, hb⟩, hteam⟩ := h
  simp only [Bool.not_eq_true'] at hs hb
  rw [AgentT.suspendA, AgentT.markSusp, hs, hb,
    AgentT.suspendTeam_eq ts ih hteam]
  simp

theorem AgentT.allSuspendedTeam_markSusp (ts : List AgentT)
    (ih : ∀ t ∈ ts, AgentT.allSuspended (AgentT.markSusp t) = true) :
    AgentT.allSuspendedTeam (AgentT.markSuspTeam ts) = true := by
  induction ts with
  | nil => simp [AgentT.markSuspTeam, AgentT.allSuspendedTeam]
  | cons t ts ihl =>
    rw [AgentT.markSuspTeam, AgentT.allSuspendedTeam]
    simp only [Bool.and_eq_true]
    exact ⟨ih t (by simp), ihl (fun u hu => ih u (by simp [hu]))⟩

theorem AgentT.allSuspended_markSusp :
    ∀ t : AgentT, AgentT.allSuspended (AgentT.markSusp t) = true := by
  refine AgentT.inductionOn (fun s b ts ih => ?_)
  rw [AgentT.markSusp, AgentT.allSuspended]
  simp only [Bool.and_eq_true, true_and]
  exact AgentT.allSuspendedTeam_markSusp ts ih

theorem AgentT.noneBuriedTeam_markSusp (ts : List AgentT)
    (ih : ∀ t ∈ ts, AgentT.noneBuried t = true →
      AgentT.noneBuried (AgentT.markSusp t) = true)
    (h : AgentT.noneBuriedTeam ts = true) :
    AgentT.noneBuriedTeam (AgentT.markSuspTeam ts) = true := by
  induction ts with
  | nil => simp [AgentT.markSuspTeam, AgentT.noneBuriedTeam]
  | cons t ts ihl =>
    rw [AgentT.noneBuriedTeam] at h
    simp only [Bool.and_eq_true] at h
    rw [AgentT.markSuspTeam, AgentT.noneBuriedTeam]
    simp only [Bool.and_eq_true]
    exact ⟨ih t (by simp) h.1, ihl (fun u hu => ih u (by simp [hu])) h.2⟩

theorem AgentT.noneBuried_markSusp :
    ∀ t : AgentT, AgentT.noneBuried t = true →
      AgentT.noneBuried (AgentT.markSusp t) = true := by
  refine AgentT.inductionOn (fun s b ts ih h => ?_)
  rw [AgentT.noneBuried] at h
  rw [AgentT.markSusp, AgentT.noneBuried]
  simp only [Bool.and_eq_true] at h ⊢
  exact ⟨h.1, AgentT.noneBuriedTeam_markSusp ts ih h.2⟩

theorem AgentT.allFresh_noneBuried :
    ∀ t : AgentT, AgentT.allFresh t = true → AgentT.noneBuried t = true := by
  refine AgentT.inductionOn (fun s b ts ih h => ?_)
  rw [AgentT.allFresh] at h
  rw [AgentT.noneBuried]
  simp only [Bool.and_eq_true] at h ⊢
  obtain ⟨⟨-, hb⟩, hteam⟩ := h
  refine ⟨hb, ?_⟩
  induction ts with
  | nil => simp [AgentT.noneBuriedTeam]
  | cons t ts ihl =>
    rw [AgentT.allFreshTeam] at hteam
    simp only [Bool.and_eq_true] at hteam
    rw [AgentT.noneBuriedTeam]
    simp only [Bool.and_eq_true]
    exact ⟨ih t (by simp) hteam.1,
      ihl (fun u hu => ih u (by simp [hu])) hteam.2⟩

theorem AgentT.countTeam_markSusp (ts : List AgentT)
    (ih : ∀ t ∈ ts, AgentT.countA (AgentT.markSusp t) = AgentT.countA t) :
    AgentT.countTeam (AgentT.markSuspTeam ts) = AgentT.countTeam ts := by
  induction ts with
  | nil => simp [AgentT.markSuspTeam]
  | cons t ts ihl =>
    rw [AgentT.markSuspTeam, AgentT.countTeam, AgentT.countTeam,
      ih t (by simp), ihl (fun u hu => ih u (by simp [hu]))]

theorem AgentT.countA_markSusp :
    ∀ t : AgentT, AgentT.countA (AgentT.markSusp t) = AgentT.countA t := by
  refine AgentT.inductionOn (fun s b ts ih => ?_)
  rw [AgentT.markSusp, AgentT.countA, AgentT.countA,
    AgentT.countTeam_markSusp ts ih]

theorem AgentT.buryTeam_eq (ts : List AgentT)
    (ih : ∀ t ∈ ts, AgentT.allSuspended t = true → AgentT.noneBuried t = true →
      AgentT.buryA t = some (.mk true true [],
        List.replicate (AgentT.countA t) (.mk true true [])))
    (hs : AgentT.allSuspendedTeam ts = true)
    (hb : AgentT.noneBuriedTeam ts = true) :
    AgentT.buryTeam ts
      = some (List.replicate (AgentT.countTeam ts) (.mk true true [])) := by
  induction ts with
  | nil => simp [AgentT.buryTeam, AgentT.countTeam]
  | cons t ts ihl =>
    rw [AgentT.allSuspendedTeam] at hs
    rw [AgentT.noneBuriedTeam] at hb
    simp only [Bool.and_eq_true] at hs hb
    rw [AgentT.buryTeam, ih t (by simp) hs.1 hb.1,
      ihl (fun u hu => ih u (by simp [hu])) hs.2 hb.2, AgentT.countTeam,
      List.replicate_add]

theorem AgentT.buryA_eq :
    ∀ t : AgentT, AgentT.allSuspended t = true → AgentT.noneBuried t = true →
      AgentT.buryA t = some (.mk true true [],
        List.replicate (AgentT.countA t) (.mk true true [])) := by
  refine AgentT.inductionOn (fun s b ts ih hs hb => ?_)
  rw [AgentT.allSuspended] at hs
  rw [AgentT.noneBuried] at hb
  simp only [Bool.and_eq_true] at hs hb
  obtain ⟨hs1, hs2⟩ := hs
  obtain ⟨hb1, hb2⟩ := hb
  simp only [Bool.not_eq_true'] at hb1
  rw [AgentT.buryA, hb1, hs1, AgentT.buryTeam_eq ts ih hs2 hb2]
  simp only [Bool.not_true, Bool.false_eq_true, if_false, AgentT.countA]
  rw [Nat.add_comm 1 (AgentT.countTeam ts), List.replicate_succ']

/-- C6: after a `Punish`/`Escalate` verdict the offender and all of its
transitive team members are suspended (`Agent.suspend` recursion), and the
subsequent `buryMember` gig buries every one of them: each agent in the
subtree ends with a sealed destiny and an empty team.  The offender's subtree
is assumed to be in the normal running state (nobody already suspended or
buried), as `suspend` and `#reset` throw otherwise. -/
theorem punish_escalate_buries_team (t : AgentT)
    (h : AgentT.allFresh t = true) :
    AgentT.suspendA t = some (AgentT.markSusp t) ∧
    AgentT.allSuspended (AgentT.markSusp t) = true ∧
    AgentT.punishFlow t = some (.mk true true [],
      List.replicate (AgentT.countA t) (.mk true true [])) ∧
    ∀ g ∈ List.replicate (AgentT.countA t) (AgentT.mk true true []),
      g.buried = true ∧ g.team = [] := by
  have h1 := AgentT.suspendA_eq t h
  have h2 := AgentT.allSuspended_markSusp t
  have h3 := AgentT.noneBuried_markSusp t (AgentT.allFresh_noneBuried t h)
  have h4 := AgentT.buryA_eq (AgentT.markSusp t) h2 h3
  have hcount := AgentT.countA_markSusp t
  refine ⟨h1, h2, ?_, ?_⟩
  · rw [AgentT.punishFlow, h1]
    simp [h4, hcount]
  · intro g hg
    rw [List.eq_of_mem_replicate hg]
    exact ⟨rfl, rfl⟩

/-- Witness for `punish_escalate_buries_team`: a two-level team. -/
theorem punish_escalate_buries_team_witness :
    AgentT.allFresh (.mk false false [.mk false false [], .mk false false []])
      = true ∧
    AgentT.punishFlow (.mk false false [.mk false false [], .mk false false []])
      = some (.mk true true [], List.replicate 3 (.mk true true [])) :=
  ⟨rfl, by
    have := (punish_escalate_buries_team
      (.mk false false [.mk false false [], .mk false false []]) rfl).2.2.1
    simpa [AgentT.countA, AgentT.countTeam] using this⟩

/-- `stageLoop` always produces at least one state (every exit path runs the
`finally` clear). -/
theorem StageState.stageLoop_ne_nil (entries : List PlayEntry)
    (st : StageState) : StageState.stageLoop entries st ≠ [] := by
  cases entries with
  | nil => simp [StageState.stageLoop]
  | cons e rest =>
    rw [StageState.stageLoop]
    split <;> simp

theorem StageState.takeStageEffect_of_ne (e : PlayEntry) (s : StageState)
    (h : e.outcome ≠ .throws) :
    StageState.takeStageEffect e s = some { s with
      active := s.active.filter (· ≠ e.gig)
      busy := s.busy.filter (· ≠ e.agent) } := by
  rcases ho : e.outcome with _ | _ | _
  · simp [StageState.takeStageEffect, ho]
  · simp [StageState.takeStageEffect, ho]
  · exact absurd ho h

/-- The playlist loop keeps at most one gig in `active` and one agent in
`busy` at every intermediate state, and every exit path ends with both
statuses cleared. -/
theorem StageState.stageLoop_spec (entries : List PlayEntry) :
    ∀ st : StageState, st.active = [] → st.busy = [] →
      (∀ s ∈ StageState.stageLoop entries st,
          s.active.length ≤ 1 ∧ s.busy.length ≤ 1) ∧
      ∃ lastS, (StageState.stageLoop entries st).getLast? = some lastS ∧
        lastS.active = [] ∧ lastS.busy = [] ∧ lastS.handling = false := by
  induction entries with
  | nil =>
    intro st hA hB
    refine ⟨fun s hs => ?_,
      ⟨StageState.clearStage st, by simp [StageState.stageLoop], rfl, rfl, rfl⟩⟩
    rw [StageState.stageLoop] at hs
    simp only [List.mem_singleton] at hs
    subst hs
    simp [StageState.clearStage]
  | cons e rest ih =>
    intro st hA hB
    have hg : ¬(st.active ≠ [] ∨ st.busy ≠ []) := by simp [hA, hB]
    rw [StageState.stageLoop, if_neg hg]
    dsimp only
    by_cases hth : e.outcome = .throws
    · have hEff : StageState.takeStageEffect e
          { st with active := st.active ++ [e.gig], busy := st.busy ++ [e.agent] }
            = none := by
        simp [StageState.takeStageEffect, hth]
      rw [hEff]
      refine ⟨fun s hs => ?_,
        ⟨StageState.clearStage
          { st with active := st.active ++ [e.gig], busy := st.busy ++ [e.agent] },
         by simp, rfl, rfl, rfl⟩⟩
      simp only [List.mem_cons, List.not_mem_nil, or_false] at hs
      rcases hs with hs | hs | hs <;> subst hs <;>
        simp [StageState.clearStage, hA, hB]
    · rw [StageState.takeStageEffect_of_ne e _ hth]
      have hact : ((st.active ++ [e.gig]).filter (· ≠ e.gig)) = [] := by
        simp [hA]
      have hbus : ((st.busy ++ [e.agent]).filter (· ≠ e.agent)) = [] := by
        simp [hB]
      cases hbz : e.budgetZero
      · -- budget not exhausted: continue with the emptied stage
        simp only [Bool.false_eq_true, if_false]
        obtain ⟨hinv, lastS, hlast, hl1, hl2, hl3⟩ :=
          ih { active := (st.active ++ [e.gig]).filter (· ≠ e.gig)
               busy := (st.busy ++ [e.agent]).filter (· ≠ e.agent)
               handling := st.handling } hact hbus
        refine ⟨fun s hs => ?_, ⟨lastS, ?_, hl1, hl2, hl3⟩⟩
        · simp only [List.mem_cons] at hs
          rcases hs with hs | hs | hs | hs
          · subst hs; simp [hA, hB]
          · subst hs; simp [hA, hB]
          · subst hs; simp [hA, hB]
          · exact hinv s hs
        · rcases htl : StageState.stageLoop rest
              { active := (st.active ++ [e.gig]).filter (· ≠ e.gig)
                busy := (st.busy ++ [e.agent]).filter (· ≠ e.agent)
                handling := st.handling } with _ | ⟨x, xs⟩
          · exact absurd htl (StageState.stageLoop_ne_nil _ _)
          · rw [htl] at hlast
            simpa [List.getLast?_cons_cons] using hlast
      · -- budget exhausted: assert emptiness and break
        simp only [if_true]
        refine ⟨fun s hs => ?_,
          ⟨StageState.clearStage
            { active := (st.active ++ [e.gig]).filter (· ≠ e.gig)
              busy := (st.busy ++ [e.agent]).filter (· ≠ e.agent)
              handling := st.handling },
           by simp, rfl, rfl, rfl⟩⟩
        simp only [List.mem_cons, List.not_mem_nil, or_false] at hs
        rcases hs with hs | hs | hs | hs <;> subst hs <;>
          simp [StageState.clearStage, hA, hB, hact, hbus]

/-- C8: within one `handleInterrupt` — starting, as every interrupt does,
from an empty stage with no interrupt being handled — every intermediate
scheduler state has at most one gig in `active` and at most one agent in
`busy`: the loop requires both statuses empty before a gig takes the stage,
`takeStage` empties them again on every non-throwing path, and the `finally`
block clears them on every exit, so the final state is empty again. -/
theorem stage_one_gig_at_a_time (entries : List PlayEntry) (st : StageState)
    (hA : st.active = []) (hB : st.busy = []) (hH : st.handling = false) :
    (∀ s ∈ StageState.handleInterrupt entries st,
        s.active.length ≤ 1 ∧ s.busy.length ≤ 1) ∧
    ∃ lastS, (StageState.handleInterrupt entries st).getLast? = some lastS ∧
      lastS.active = [] ∧ lastS.busy = [] ∧ lastS.handling = false := by
  rw [StageState.handleInterrupt, if_neg (by simp [hH])]
  obtain ⟨hinv, lastS, hlast, hl1, hl2, hl3⟩ :=
    StageState.stageLoop_spec entries { st with handling := true } hA hB
  refine ⟨fun s hs => ?_, ⟨lastS, ?_, hl1, hl2, hl3⟩⟩
  · simp only [List.mem_cons] at hs
    rcases hs with hs | hs
    · subst hs; simp [hA, hB]
    · exact hinv s hs
  · rcases htl : StageState.stageLoop entries { st with handling := true } with
      _ | ⟨x, xs⟩
    · exact absurd htl (StageState.stageLoop_ne_nil _ _)
    · rw [htl] at hlast
      simpa [htl, List.getLast?_cons_cons] using hlast

/-- Witness for `stage_one_gig_at_a_time`: a two-gig playlist on an empty
stage. -/
theorem stage_one_gig_at_a_time_witness :
    (∀ s ∈ StageState.handleInterrupt
        [⟨0, 10, .finishes, false⟩, ⟨1, 11, .reposts, false⟩]
        { active := [], busy := [], handling := false },
      s.active.length ≤ 1 ∧ s.busy.length ≤ 1) ∧
    ∃ lastS, (StageState.handleInterrupt
        [⟨0, 10, .finishes, false⟩, ⟨1, 11, .reposts, false⟩]
        { active := [], busy := [], handling := false }).getLast?
          = some lastS ∧
      lastS.active = [] ∧ lastS.busy = [] ∧ lastS.handling = false :=
  stage_one_gig_at_a_time
    [⟨0, 10, .finishes, false⟩, ⟨1, 11, .reposts, false⟩]
    { active := [], busy := [], handling := false } rfl rfl rfl

/-! ### Path and frame lemmas for the cue engine -/

@[simp] theorem CState.nodes_setNode (st : CState) (p q : List Nat)
    (f : NodeSt → NodeSt) :
    (st.setNode p f).nodes q = if q = p then f (st.nodes q) else st.nodes q := by
  simp [CState.setNode]

@[simp] theorem CState.commitStatus_setNode (st : CState) (p : List Nat)
    (f : NodeSt → NodeSt) : (st.setNode p f).commitStatus = st.commitStatus := rfl

@[simp] theorem CState.commitEventChild_setNode (st : CState) (p : List Nat)
    (f : NodeSt → NodeSt) :
    (st.setNode p f).commitEventChild = st.commitEventChild := rfl

@[simp] theorem CState.effects_setNode (st : CState) (p : List Nat)
    (f : NodeSt → NodeSt) : (st.setNode p f).effects = st.effects := rfl

theorem subShape_append (p r : List Nat) (h : HintT) :
    subShape h (p ++ r) = (subShape h p).bind (fun hh => subShape hh r) := by
  induction p generalizing h with
  | nil => simp [subShape]
  | cons i p ih =>
    cases h with
    | leaf s => simp [subShape]
    | capture t c =>
      by_cases hi : i = 0
      · subst hi
        simpa [subShape] using ih c

      · simp [subShape, hi]
    | family k cs =>
      simp only [subShape]
      cases hcs : cs.get? i with
      | none => simp [List.get?_eq_getElem?] at hcs; simp [hcs]
      | some c =>
        rw [List.get?_eq_getElem?] at hcs
        simp [hcs, ih c]

theorem subShape_child_capture {h : HintT} {q : List Nat} {t : Signal → Signal}
    {c : HintT} (hq : subShape h q = some (.capture t c)) :
    subShape h (q ++ [0]) = some c := by
  rw [subShape_append, hq]
  simp [subShape]

theorem subShape_child_family {h : HintT} {q : List Nat} {k : FamKind}
    {cs : List HintT} {i : Nat} {c : HintT}
    (hq : subShape h q = some (.family k cs)) (hc : cs.get? i = some c) :
    subShape h (q ++ [i]) = some c := by
  rw [List.get?_eq_getElem?] at hc
  rw [subShape_append, hq]
  simp [subShape, hc]

theorem append_singleton_prefix_inj {p q : List Nat} {i j : Nat}
    (hi : (p ++ [i]) <+: q) (hj : (p ++ [j]) <+: q) : i = j := by
  have h1 : (p ++ [i]) <+: (p ++ [j]) :=
    List.prefix_of_prefix_length_le hi hj (by simp)
  have h2 := h1.eq_of_length (by simp)
  simpa using h2

theorem not_append_singleton_prefix (p : List Nat) (i : Nat) :
    ¬ (p ++ [i]) <+: p := by
  intro h
  have := h.length_le
  simp at this

/-- The node clause only reads state below `q`. -/
theorem nodeClause_congr {h : HintT} {q : List Nat} {st1 st2 : CState}
    (hagree : ∀ r, q <+: r → st1.nodes r = st2.nodes r) :
    nodeClause h q st1 ↔ nodeClause h q st2 := by
  have hq : st1.nodes q = st2.nodes q := hagree q (List.prefix_refl q)
  unfold nodeClause
  cases subShape h q with
  | none => simp
  | some hh =>
    cases hh with
    | leaf s => rw [hq]
    | capture t c =>
      rw [hq, hagree (q ++ [0]) (by simp)]
    | family k cs =>
      rw [hq]
      constructor <;> intro hcl hp i hi <;>
        [rw [← hagree (q ++ [i]) (by simp)]; rw [hagree (q ++ [i]) (by simp)]] <;>
        exact hcl hp i hi

mutual
/-- `unblockNode` never touches the commit bookkeeping. -/
theorem unblockNode_commitFrame (revealing : Bool) (h : HintT) (p : List Nat)
    (st : CState) :
    ∀ st', unblockNode revealing h p st = some st' →
      st'.commitStatus = st.commitStatus ∧
      st'.commitEventChild = st.commitEventChild ∧
      st'.effects = st.effects := by
  intro st' heq
  cases h with
  | leaf s =>
    rw [unblockNode] at heq
    split at heq
    · exact absurd heq (by simp)
    · simp only [Option.some.injEq] at heq
      subst heq
      exact ⟨rfl, rfl, rfl⟩
  | capture t c =>
    rw [unblockNode] at heq
    split at heq
    · exact absurd heq (by simp)
    · split at heq
      · simp only [Option.some.injEq] at heq
        subst heq
        exact ⟨rfl, rfl, rfl⟩
      · split at heq
        · exact absurd heq (by simp)
        · obtain ⟨a, b, c2⟩ := unblockNode_commitFrame false c (p ++ [0]) _ st' heq
          simp only [CState.commitStatus_setNode, CState.commitEventChild_setNode,
            CState.effects_setNode] at a b c2
          exact ⟨a, b, c2⟩
  | family k cs =>
    rw [unblockNode] at heq
    split at heq
    · exact absurd heq (by simp)
    · obtain ⟨a, b, c2⟩ := unblockKids_commitFrame cs 0 _ p _ st' heq
      simp only [CState.commitStatus_setNode, CState.commitEventChild_setNode,
        CState.effects_setNode] at a b c2
      exact ⟨a, b, c2⟩

theorem unblockKids_commitFrame (cs : List HintT) (i created : Nat)
    (p : List Nat) (st : CState) :
    ∀ st', unblockKids cs i created p st = some st' →
      st'.commitStatus = st.commitStatus ∧
      st'.commitEventChild = st.commitEventChild ∧
      st'.effects = st.effects := by
  intro st' heq
  cases cs with
  | nil =>
    rw [unblockKids] at heq
    simp only [Option.some.injEq] at heq
    subst heq
    exact ⟨rfl, rfl, rfl⟩
  | cons c rest =>
    rw [unblockKids] at heq
    split at heq
    · split at heq
      · cases hu : unblockNode false c (p ++ [i]) st with
        | none => rw [hu] at heq; exact absurd heq (by simp)
        | some st2 =>
          rw [hu] at heq
          obtain ⟨h1, h2, h3⟩ := unblockNode_commitFrame false c (p ++ [i]) st st2 hu
          obtain ⟨g1, g2, g3⟩ := unblockKids_commitFrame rest (i + 1) created p st2 st' heq
          exact ⟨g1.trans h1, g2.trans h2, g3.trans h3⟩
      · exact unblockKids_commitFrame rest (i + 1) created p st st' heq
    · exact unblockKids_commitFrame rest (i + 1) created p st st' heq
end

mutual
theorem reachPend_below (c : HintT) (pc : List Nat) (st : CState) :
    ∀ x ∈ reachPend c pc st, pc <+: x := by
  intro x hx
  rw [reachPend.eq_def] at hx
  dsimp only at hx
  split at hx
  · cases c with
    | leaf s =>
      simp only [List.mem_singleton] at hx
      subst hx
      exact List.prefix_refl x
    | capture t cc =>
      simp only [List.mem_cons] at hx
      rcases hx with hx | hx
      · subst hx; exact List.prefix_refl x
      · exact List.IsPrefix.trans (by simp)
          (reachPend_below cc (pc ++ [0]) st x hx)
    | family k cs =>
      simp only [List.mem_cons] at hx
      rcases hx with hx | hx
      · subst hx; exact List.prefix_refl x
      · obtain ⟨j, -, hj⟩ := reachKids_below cs 0 pc st x hx
        exact List.IsPrefix.trans (by simp) hj
  · simp at hx

theorem reachKids_below (cs : List HintT) (i : Nat) (p : List Nat)
    (st : CState) :
    ∀ x ∈ reachKids cs i p st, ∃ j, i ≤ j ∧ (p ++ [j]) <+: x := by
  intro x hx
  cases cs with
  | nil => rw [reachKids] at hx; simp at hx
  | cons c rest =>
    rw [reachKids] at hx
    rcases List.mem_append.mp hx with hx | hx
    · exact ⟨i, le_refl i, reachPend_below c (p ++ [i]) st x hx⟩
    · obtain ⟨j, hij, hj⟩ := reachKids_below rest (i + 1) p st x hx
      exact ⟨j, by omega, hj⟩
end

mutual
theorem reachPend_pending (c : HintT) (pc : List Nat) (st : CState) :
    ∀ x ∈ reachPend c pc st, (st.nodes x).status = .pending := by
  intro x hx
  rw [reachPend.eq_def] at hx
  dsimp only at hx
  split at hx
  · rename_i hp
    cases c with
    | leaf s =>
      simp only [List.mem_singleton] at hx
      subst hx; exact hp
    | capture t cc =>
      simp only [List.mem_cons] at hx
      rcases hx with hx | hx
      · subst hx; exact hp
      · exact reachPend_pending cc (pc ++ [0]) st x hx
    | family k cs =>
      simp only [List.mem_cons] at hx
      rcases hx with hx | hx
      · subst hx; exact hp
      · exact reachKids_pending cs 0 pc st x hx
  · simp at hx

theorem reachKids_pending (cs : List HintT) (i : Nat) (p : List Nat)
    (st : CState) :
    ∀ x ∈ reachKids cs i p st, (st.nodes x).status = .pending := by
  intro x hx
  cases cs with
  | nil => rw [reachKids] at hx; simp at hx
  | cons c rest =>
    rw [reachKids] at hx
    rcases List.mem_append.mp hx with hx | hx
    · exact reachPend_pending c (p ++ [i]) st x hx
    · exact reachKids_pending rest (i + 1) p st x hx
end

mutual
theorem reachPend_congr (c : HintT) (pc : List Nat) (st1 st2 : CState)
    (hagree : ∀ r, pc <+: r → st1.nodes r = st2.nodes r) :
    reachPend c pc st1 = reachPend c pc st2 := by
  rw [reachPend.eq_def, reachPend.eq_def]
  dsimp only
  rw [hagree pc (List.prefix_refl pc)]
  by_cases hp : (st2.nodes pc).status = .pending
  · rw [if_pos hp, if_pos hp]
    cases c with
    | leaf s => rfl
    | capture t cc =>
      dsimp only
      rw [reachPend_congr cc (pc ++ [0]) st1 st2
        (fun r hr => hagree r (List.IsPrefix.trans (by simp) hr))]
    | family k cs =>
      dsimp only
      rw [reachKids_congr cs 0 pc st1 st2
        (fun r j _ hr => hagree r (List.IsPrefix.trans (by simp) hr))]
  · rw [if_neg hp, if_neg hp]

theorem reachKids_congr (cs : List HintT) (i : Nat) (p : List Nat)
    (st1 st2 : CState)
    (hagree : ∀ r j, i ≤ j → (p ++ [j]) <+: r → st1.nodes r = st2.nodes r) :
    reachKids cs i p st1 = reachKids cs i p st2 := by
  cases cs with
  | nil => rw [reachKids, reachKids]
  | cons c rest =>
    rw [reachKids, reachKids,
      reachPend_congr c (p ++ [i]) st1 st2
        (fun r hr => hagree r i (le_refl i) hr),
      reachKids_congr rest (i + 1) p st1 st2
        (fun r j hj hr => hagree r j (by omega) hr)]
end

theorem reachPend_leaf (s : Option Signal) (pc : List Nat) (st : CState)
    (hp : (st.nodes pc).status = .pending) :
    reachPend (.leaf s) pc st = [pc] := by
  rw [reachPend.eq_def]; dsimp only; rw [if_pos hp]

theorem reachPend_capture (t : Signal → Signal) (cc : HintT) (pc : List Nat)
    (st : CState) (hp : (st.nodes pc).status = .pending) :
    reachPend (.capture t cc) pc st = pc :: reachPend cc (pc ++ [0]) st := by
  rw [reachPend.eq_def]; dsimp only; rw [if_pos hp]

theorem reachPend_family (k : FamKind) (cs : List HintT) (pc : List Nat)
    (st : CState) (hp : (st.nodes pc).status = .pending) :
    reachPend (.family k cs) pc st = pc :: reachKids cs 0 pc st := by
  rw [reachPend.eq_def]; dsimp only; rw [if_pos hp]

theorem reachPend_not_pending (c : HintT) (pc : List Nat) (st : CState)
    (hp : (st.nodes pc).status ≠ .pending) :
    reachPend c pc st = [] := by
  rw [reachPend.eq_def]; dsimp only; rw [if_neg hp]

theorem reachKids_nil (i : Nat) (p : List Nat) (st : CState) :
    reachKids [] i p st = [] := by
  rw [reachKids]

theorem reachKids_cons (c : HintT) (rest : List HintT) (i : Nat)
    (p : List Nat) (st : CState) :
    reachKids (c :: rest) i p st
      = reachPend c (p ++ [i]) st ++ reachKids rest (i + 1) p st := by
  rw [reachKids]

mutual
/-- The cancellation cascade of `unblock(false, …)` on a pending event whose
subtree satisfies the node clauses: it succeeds, marks exactly the
pending-reachable events used, runs each reached leaf's `end(false, cue)`
exactly once, and leaves every other node untouched. -/
theorem unblockNode_false_spec (c : HintT) (pc : List Nat) (H : HintT)
    (st : CState)
    (hsh : subShape H pc = some c)
    (hcl : ∀ q, pc <+: q → nodeClause H q st)
    (hp : (st.nodes pc).status = .pending) :
    ∃ st', unblockNode false c pc st = some st' ∧
      (∀ q, q ∈ reachPend c pc st → (st'.nodes q).status = .used) ∧
      (∀ q, q ∈ reachPend c pc st → ∀ s0, subShape H q = some (.leaf s0) →
        (st'.nodes q).endFalse = (st.nodes q).endFalse + 1) ∧
      (∀ q, q ∉ reachPend c pc st → st'.nodes q = st.nodes q) := by
  cases c with
  | leaf s =>
    refine ⟨st.setNode pc fun n =>
      { n with status := .used, endFalse := n.endFalse + 1 }, ?_, ?_, ?_, ?_⟩
    · simp [unblockNode, hp]
    · intro q hq
      rw [reachPend_leaf s pc st hp] at hq
      simp only [List.mem_singleton] at hq
      subst hq
      simp
    · intro q hq s0 hq0
      rw [reachPend_leaf s pc st hp] at hq
      simp only [List.mem_singleton] at hq
      subst hq
      simp
    · intro q hq
      rw [reachPend_leaf s pc st hp] at hq
      simp only [List.mem_singleton] at hq
      simp [hq]
  | capture t cc =>
    have hclpc := hcl pc (List.prefix_refl pc)
    rw [nodeClause, hsh] at hclpc
    dsimp only at hclpc
    obtain ⟨hcp, hcpend⟩ := hclpc hp
    have hchildsh := subShape_child_capture hsh
    have hagree1 : ∀ r, (pc ++ [0]) <+: r →
        (st.setNode pc fun n =>
          { n with status := .used, childPropagated := false }).nodes r
          = st.nodes r := by
      intro r hr
      have : r ≠ pc := fun heq =>
        not_append_singleton_prefix pc 0 (heq ▸ hr)
      simp [this]
    obtain ⟨st2, h2run, h2used, h2leaf, h2frame⟩ :=
      unblockNode_false_spec cc (pc ++ [0]) H
        (st.setNode pc fun n => { n with status := .used, childPropagated := false })
        hchildsh
        (fun q hq => by
          rw [nodeClause_congr (fun r hr =>
            hagree1 r (List.IsPrefix.trans hq hr))]
          exact hcl q (List.IsPrefix.trans (by simp) hq))
        (by rw [hagree1 (pc ++ [0]) (List.prefix_refl _)]; exact hcpend)
    have hreach1 : reachPend cc (pc ++ [0])
        (st.setNode pc fun n => { n with status := .used, childPropagated := false })
          = reachPend cc (pc ++ [0]) st :=
      reachPend_congr cc (pc ++ [0]) _ st hagree1
    have hnotpc : pc ∉ reachPend cc (pc ++ [0]) st := by
      intro hmem
      exact not_append_singleton_prefix pc 0
        (reachPend_below cc (pc ++ [0]) st pc hmem)
    refine ⟨st2, ?_, ?_, ?_, ?_⟩
    · rw [unblockNode, if_neg (by simp [hp]), if_neg (by simp),
        if_neg (by simp [hcp])]
      exact h2run
    · intro q hq
      rw [reachPend_capture t cc pc st hp] at hq
      simp only [List.mem_cons] at hq
      rcases hq with hq | hq
      · rw [hq, h2frame pc (by rw [hreach1]; exact hnotpc)]
        simp
      · exact h2used q (by rw [hreach1]; exact hq)
    · intro q hq s0 hq0
      rw [reachPend_capture t cc pc st hp] at hq
      simp only [List.mem_cons] at hq
      rcases hq with hq | hq
      · rw [hq] at hq0
        rw [hsh] at hq0
        exact absurd hq0 (by simp)
      · rw [h2leaf q (by rw [hreach1]; exact hq) s0 hq0]
        have hqne : q ≠ pc := fun heq => hnotpc (heq ▸ hq)
        simp [hqne]
    · intro q hq
      rw [reachPend_capture t cc pc st hp] at hq
      simp only [List.mem_cons, not_or] at hq
      rw [h2frame q (by rw [hreach1]; exact hq.2)]
      simp [hq.1]
  | family k cs =>
    have hclpc := hcl pc (List.prefix_refl pc)
    rw [nodeClause, hsh] at hclpc
    dsimp only at hclpc
    have hunused := hclpc hp
    have hagree1 : ∀ r j, (0 : Nat) ≤ j → (pc ++ [j]) <+: r →
        (st.setNode pc fun n =>
          { n with status := .used, recorded := [] }).nodes r
          = st.nodes r := by
      intro r j _ hr
      have : r ≠ pc := fun heq =>
        not_append_singleton_prefix pc j (heq ▸ hr)
      simp [this]
    obtain ⟨st2, h2run, h2used, h2leaf, h2frame⟩ :=
      unblockKids_spec cs 0 (st.nodes pc).created pc H
        (st.setNode pc fun n => { n with status := .used, recorded := [] })
        (fun j c' hj => by
          have := subShape_child_family hsh hj
          simpa using this)
        (fun q j hij hq => by
          rw [nodeClause_congr (fun r hr =>
            hagree1 r j hij (List.IsPrefix.trans hq hr))]
          exact hcl q (List.IsPrefix.trans (by simp) hq))
        (fun j _ hcj => by
          rw [hagree1 (pc ++ [j]) j (by omega) (List.prefix_refl _)]
          rw [hunused j hcj]
          simp)
    have hreach1 : reachKids cs 0 pc
        (st.setNode pc fun n => { n with status := .used, recorded := [] })
          = reachKids cs 0 pc st :=
      reachKids_congr cs 0 pc _ st (fun r j hj hr => hagree1 r j hj hr)
    have hnotpc : pc ∉ reachKids cs 0 pc st := by
      intro hmem
      obtain ⟨j, -, hj⟩ := reachKids_below cs 0 pc st pc hmem
      exact not_append_singleton_prefix pc j hj
    refine ⟨st2, ?_, ?_, ?_, ?_⟩
    · rw [unblockNode, if_neg (by simp [hp])]
      exact h2run
    · intro q hq
      rw [reachPend_family k cs pc st hp] at hq
      simp only [List.mem_cons] at hq
      rcases hq with hq | hq
      · rw [hq, h2frame pc (by rw [hreach1]; exact hnotpc)]
        simp
      · exact h2used q (by rw [hreach1]; exact hq)
    · intro q hq s0 hq0
      rw [reachPend_family k cs pc st hp] at hq
      simp only [List.mem_cons] at hq
      rcases hq with hq | hq
      · rw [hq] at hq0
        rw [hsh] at hq0
        exact absurd hq0 (by simp)
      · rw [h2leaf q (by rw [hreach1]; exact hq) s0 hq0]
        have hqne : q ≠ pc := fun heq => hnotpc (heq ▸ hq)
        simp [hqne]
    · intro q hq
      rw [reachPend_family k cs pc st hp] at hq
      simp only [List.mem_cons, not_or] at hq
      rw [h2frame q (by rw [hreach1]; exact hq.2)]
      simp [hq.1]

/-- The loop of `FamilyEvent.unblock` cancels each created, still-pending
child subtree. -/
theorem unblockKids_spec (cs : List HintT) (i created : Nat) (p : List Nat)
    (H : HintT) (st : CState)
    (hsub : ∀ j c', cs.get? j = some c' → subShape H (p ++ [i + j]) = some c')
    (hcl : ∀ q j, i ≤ j → (p ++ [j]) <+: q → nodeClause H q st)
    (hskip : ∀ j, i ≤ j → created ≤ j →
      (st.nodes (p ++ [j])).status ≠ .pending) :
    ∃ st', unblockKids cs i created p st = some st' ∧
      (∀ q, q ∈ reachKids cs i p st → (st'.nodes q).status = .used) ∧
      (∀ q, q ∈ reachKids cs i p st → ∀ s0, subShape H q = some (.leaf s0) →
        (st'.nodes q).endFalse = (st.nodes q).endFalse + 1) ∧
      (∀ q, q ∉ reachKids cs i p st → st'.nodes q = st.nodes q) := by
  cases cs with
  | nil =>
    refine ⟨st, by rw [unblockKids], ?_, ?_, ?_⟩ <;>
      intro q hq <;> rw [reachKids_nil] at hq <;> first
        | exact absurd hq (by simp)
        | rfl
  | cons c rest =>
    have hsub0 : subShape H (p ++ [i]) = some c := by
      have := hsub 0 c rfl
      simpa using this
    have hsubrest : ∀ j c', rest.get? j = some c' →
        subShape H (p ++ [(i + 1) + j]) = some c' := by
      intro j c' hj
      have h := hsub (j + 1) c' (by simpa using hj)
      have harith : i + (j + 1) = (i + 1) + j := by omega
      rwa [harith] at h
    by_cases hlt : i < created
    · by_cases hcp : (st.nodes (p ++ [i])).status = .pending
      · -- cancel this child, then the remaining children
        obtain ⟨st2, h2run, h2used, h2leaf, h2frame⟩ :=
          unblockNode_false_spec c (p ++ [i]) H st hsub0
            (fun q hq => hcl q i (le_refl i) hq) hcp
        have hframe2 : ∀ r j, i + 1 ≤ j → (p ++ [j]) <+: r →
            st2.nodes r = st.nodes r := by
          intro r j hj hr
          refine h2frame r ?_
          intro hmem
          have hpre := reachPend_below c (p ++ [i]) st r hmem
          have := append_singleton_prefix_inj hpre hr
          omega
        obtain ⟨st3, h3run, h3used, h3leaf, h3frame⟩ :=
          unblockKids_spec rest (i + 1) created p H st2 hsubrest
            (fun q j hij hq => by
              rw [nodeClause_congr (fun r hr =>
                hframe2 r j hij (List.IsPrefix.trans hq hr))]
              exact hcl q j (by omega) hq)
            (fun j hij hcj => by
              rw [hframe2 (p ++ [j]) j hij (List.prefix_refl _)]
              exact hskip j (by omega) hcj)
        have hreach2 : reachKids rest (i + 1) p st2
            = reachKids rest (i + 1) p st :=
          reachKids_congr rest (i + 1) p st2 st
            (fun r j hj hr => hframe2 r j hj hr)
        have hdisj : ∀ q, q ∈ reachPend c (p ++ [i]) st →
            q ∉ reachKids rest (i + 1) p st := by
          intro q hq hmem
          have h1 := reachPend_below c (p ++ [i]) st q hq
          obtain ⟨j, hj, h2⟩ := reachKids_below rest (i + 1) p st q hmem
          have := append_singleton_prefix_inj h1 h2
          omega
        refine ⟨st3, ?_, ?_, ?_, ?_⟩
        · rw [unblockKids, if_pos hlt, if_pos hcp, h2run]
          exact h3run
        · intro q hq
          rw [reachKids_cons] at hq
          rcases List.mem_append.mp hq with hq | hq
          · rw [h3frame q (by rw [hreach2]; exact hdisj q hq)]
            exact h2used q hq
          · exact h3used q (by rw [hreach2]; exact hq)
        · intro q hq s0 hq0
          rw [reachKids_cons] at hq
          rcases List.mem_append.mp hq with hq | hq
          · rw [h3frame q (by rw [hreach2]; exact hdisj q hq)]
            exact h2leaf q hq s0 hq0
          · rw [h3leaf q (by rw [hreach2]; exact hq) s0 hq0]
            rw [h2frame q (fun hmem => hdisj q hmem hq)]
        · intro q hq
          rw [reachKids_cons] at hq
          simp only [List.mem_append, not_or] at hq
          rw [h3frame q (by rw [hreach2]; exact hq.2), h2frame q hq.1]
      · -- child not pending: nothing to cancel here
        have hempty : reachPend c (p ++ [i]) st = [] :=
          reachPend_not_pending c (p ++ [i]) st hcp
        obtain ⟨st3, h3run, h3used, h3leaf, h3frame⟩ :=
          unblockKids_spec rest (i + 1) created p H st hsubrest
            (fun q j hij hq => hcl q j (by omega) hq)
            (fun j hij hcj => hskip j (by omega) hcj)
        refine ⟨st3, ?_, ?_, ?_, ?_⟩
        · rw [unblockKids, if_pos hlt, if_neg hcp]
          exact h3run
        · intro q hq
          rw [reachKids_cons, hempty] at hq
          exact h3used q (by simpa using hq)
        · intro q hq s0 hq0
          rw [reachKids_cons, hempty] at hq
          exact h3leaf q (by simpa using hq) s0 hq0
        · intro q hq
          rw [reachKids_cons, hempty] at hq
          exact h3frame q (by simpa using hq)
    · -- beyond the created children: they are not pending
      have hcp : (st.nodes (p ++ [i])).status ≠ .pending :=
        hskip i (le_refl i) (by omega)
      have hempty : reachPend c (p ++ [i]) st = [] :=
        reachPend_not_pending c (p ++ [i]) st hcp
      obtain ⟨st3, h3run, h3used, h3leaf, h3frame⟩ :=
        unblockKids_spec rest (i + 1) created p H st hsubrest
          (fun q j hij hq => hcl q j (by omega) hq)
          (fun j hij hcj => hskip j (by omega) hcj)
      refine ⟨st3, ?_, ?_, ?_, ?_⟩
      · rw [unblockKids, if_neg hlt]
        exact h3run
      · intro q hq
        rw [reachKids_cons, hempty] at hq
        exact h3used q (by simpa using hq)
      · intro q hq s0 hq0
        rw [reachKids_cons, hempty] at hq
        exact h3leaf q (by simpa using hq) s0 hq0
      · intro q hq
        rw [reachKids_cons, hempty] at hq
        exact h3frame q (by simpa using hq)
end

theorem prefix_append_singleton_cases {p q : List Nat} {i : Nat}
    (h : p <+: (q ++ [i])) : p <+: q ∨ p = q ++ [i] := by
  rcases Nat.lt_or_ge p.length (q ++ [i]).length with hlen | hlen
  · left
    have hle : p.length ≤ q.length := by simp at hlen; omega
    have := List.prefix_iff_eq_take.mp h
    rw [List.take_append_of_le_length hle] at this
    rw [this]
    exact List.take_prefix _ _
  · right
    exact h.eq_of_length (le_antisymm h.length_le hlen)

mutual
theorem reachPend_parent_mem (c : HintT) (pc : List Nat) (st : CState) :
    ∀ x ∈ reachPend c pc st, x = pc ∨ x.dropLast ∈ reachPend c pc st := by
  intro x hx
  by_cases hp : (st.nodes pc).status = .pending
  · cases c with
    | leaf s =>
      rw [reachPend_leaf s pc st hp] at hx
      simp only [List.mem_singleton] at hx
      exact Or.inl hx
    | capture t cc =>
      rw [reachPend_capture t cc pc st hp] at hx ⊢
      simp only [List.mem_cons] at hx
      rcases hx with hx | hx
      · exact Or.inl hx
      · rcases reachPend_parent_mem cc (pc ++ [0]) st x hx with h1 | h1
        · right
          rw [h1]
          simp [List.dropLast_concat]
        · exact Or.inr (by simp [h1])
    | family k cs =>
      rw [reachPend_family k cs pc st hp] at hx ⊢
      simp only [List.mem_cons] at hx
      rcases hx with hx | hx
      · exact Or.inl hx
      · rcases reachKids_parent_mem cs 0 pc st x hx with ⟨j, h1⟩ | h1
        · right
          rw [h1]
          simp [List.dropLast_concat]
        · exact Or.inr (by simp [h1])
  · rw [reachPend_not_pending c pc st hp] at hx
    exact absurd hx (by simp)

theorem reachKids_parent_mem (cs : List HintT) (i : Nat) (p : List Nat)
    (st : CState) :
    ∀ x ∈ reachKids cs i p st,
      (∃ j, x = p ++ [j]) ∨ x.dropLast ∈ reachKids cs i p st := by
  intro x hx
  cases cs with
  | nil => rw [reachKids_nil] at hx; exact absurd hx (by simp)
  | cons c rest =>
    rw [reachKids_cons] at hx ⊢
    rcases List.mem_append.mp hx with hx | hx
    · rcases reachPend_parent_mem c (p ++ [i]) st x hx with h1 | h1
      · exact Or.inl ⟨i, h1⟩
      · exact Or.inr (List.mem_append.mpr (Or.inl h1))
    · rcases reachKids_parent_mem rest (i + 1) p st x hx with h1 | h1
      · exact Or.inl h1
      · exact Or.inr (List.mem_append.mpr (Or.inr h1))
end

/-- The node clause reads only the node itself and its direct children. -/
theorem nodeClause_congr2 {h : HintT} {q : List Nat} {st1 st2 : CState}
    (hq : st1.nodes q = st2.nodes q)
    (hkids : ∀ i, st1.nodes (q ++ [i]) = st2.nodes (q ++ [i])) :
    nodeClause h q st1 ↔ nodeClause h q st2 := by
  unfold nodeClause
  cases subShape h q with
  | none => simp
  | some hh =>
    cases hh with
    | leaf s => rw [hq]
    | capture t c => rw [hq, hkids 0]
    | family k cs =>
      rw [hq]
      constructor <;> intro hcl hp i hi <;>
        [rw [← hkids i]; rw [hkids i]] <;> exact hcl hp i hi

theorem nodeClause_not_pending {h : HintT} {q : List Nat} {st : CState}
    (hq : (st.nodes q).status ≠ .pending) : nodeClause h q st := by
  unfold nodeClause
  cases subShape h q with
  | none => trivial
  | some hh => cases hh <;> exact fun hp => absurd hp hq

theorem nodeClauseW_not_pending {h : HintT} {q : List Nat} {st : CState}
    (hq : (st.nodes q).status ≠ .pending) : nodeClauseW h q st := by
  unfold nodeClauseW
  cases subShape h q with
  | none => trivial
  | some hh => cases hh <;> first | trivial | exact fun hp => absurd hp hq

theorem nodeClauseW_congr2 {h : HintT} {q : List Nat} {st1 st2 : CState}
    (hq : st1.nodes q = st2.nodes q)
    (hkids : ∀ i, st1.nodes (q ++ [i]) = st2.nodes (q ++ [i])) :
    nodeClauseW h q st1 ↔ nodeClauseW h q st2 := by
  unfold nodeClauseW
  cases subShape h q with
  | none => simp
  | some hh =>
    cases hh with
    | leaf s => simp
    | capture t c => simp
    | family k cs =>
      rw [hq]
      constructor <;> intro hcl hp i hi <;>
        [rw [← hkids i]; rw [hkids i]] <;> exact hcl hp i hi

/-- After a pending node turns used, its parent's family clause still holds:
children at or beyond `created` were unused in the old state, hence distinct
from the formerly pending node and untouched. -/
theorem nodeClauseW_parent_pres {H : HintT} {p : List Nat} {st st1 : CState}
    (hcl : ∀ q, q ≠ p → nodeClause H q st)
    (hp : (st.nodes p).status = .pending)
    (hframe : ∀ q, ¬(p <+: q) → st1.nodes q = st.nodes q)
    (hpused : (st1.nodes p).status = .used) :
    nodeClauseW H p.dropLast st1 := by
  by_cases hnil : p = []
  · subst hnil
    exact nodeClauseW_not_pending (by simp [hpused])
  · have hpos : 0 < p.length := List.length_pos.mpr hnil
    have hq0ne : p.dropLast ≠ p := by
      intro he
      have := congrArg List.length he
      rw [List.length_dropLast] at this
      omega
    have hq0frame : st1.nodes p.dropLast = st.nodes p.dropLast := by
      refine hframe _ ?_
      intro hpre
      have := hpre.length_le
      rw [List.length_dropLast] at this
      omega
    unfold nodeClauseW
    cases hsh0 : subShape H p.dropLast with
    | none => trivial
    | some hh =>
      cases hh with
      | leaf s => trivial
      | capture t c => trivial
      | family k cs =>
        intro hpend i hi
        rw [hq0frame] at hpend hi
        have hfam := hcl p.dropLast hq0ne
        rw [nodeClause, hsh0] at hfam
        dsimp only at hfam
        have hun := hfam hpend i hi
        have hchne : p.dropLast ++ [i] ≠ p := by
          intro he
          rw [he, hp] at hun
          exact absurd hun (by simp)
        have hchframe : st1.nodes (p.dropLast ++ [i])
            = st.nodes (p.dropLast ++ [i]) := by
          refine hframe _ ?_
          intro hpre
          rcases prefix_append_singleton_cases hpre with hc | hc
          · have := hc.length_le
            rw [List.length_dropLast] at this
            omega
          · exact hchne hc.symm
        rw [hchframe]
        exact hun

/-- Unblocking a pending node with `revealing = true` (the first half of
`Event.reveal`): it succeeds, the node becomes used, nothing outside its
subtree changes, unused nodes are untouched, every changed node is used, and
every node clause except the one of the node's parent — whose capture clause
may now transiently refer to a used child — is preserved; the parent's
family clause survives. -/
theorem unblockNode_true_pres (c : HintT) (p : List Nat) (H : HintT)
    (st : CState)
    (hsh : subShape H p = some c)
    (hcl : ∀ q, q ≠ p → nodeClause H q st)
    (hclw : nodeClauseW H p st)
    (hp : (st.nodes p).status = .pending) :
    ∃ st1, unblockNode true c p st = some st1 ∧
      (st1.nodes p).status = .used ∧
      (∀ q, ¬(p <+: q) → st1.nodes q = st.nodes q) ∧
      (∀ q, (st.nodes q).status = .unused → st1.nodes q = st.nodes q) ∧
      (∀ q, st1.nodes q = st.nodes q ∨ (st1.nodes q).status = .used) ∧
      (∀ q, q ≠ p.dropLast → nodeClause H q st1) ∧
      nodeClauseW H p.dropLast st1 := by
  cases c with
  | leaf s =>
    have hframe1 : ∀ q, ¬(p <+: q) →
        ((st.setNode p fun n =>
          { n with status := .used, endTrue := n.endTrue + 1 }).nodes q)
          = st.nodes q := by
      intro q hq
      have hqne : q ≠ p := fun he => hq (he ▸ List.prefix_refl p)
      simp [hqne]
    have hused1 : (((st.setNode p fun n =>
        { n with status := .used, endTrue := n.endTrue + 1 })).nodes p).status
          = .used := by simp
    refine ⟨st.setNode p fun n =>
        { n with status := .used, endTrue := n.endTrue + 1 },
      by simp [unblockNode, hp], hused1, hframe1, ?_, ?_, ?_,
      nodeClauseW_parent_pres hcl hp hframe1 hused1⟩
    · intro q hq
      have hqne : q ≠ p := by
        intro he
        rw [he, hp] at hq
        exact absurd hq (by simp)
      simp [hqne]
    · intro q
      by_cases hqp : q = p
      · subst hqp
        exact Or.inr hused1
      · exact Or.inl (by simp [hqp])
    · intro q hq
      by_cases hqp : q = p
      · subst hqp
        exact nodeClause_not_pending (by simp)
      · have hqe : (st.setNode p fun n =>
            { n with status := .used, endTrue := n.endTrue + 1 }).nodes q
              = st.nodes q := by simp [hqp]
        rw [nodeClause_congr2 hqe (fun i => by
          have hne : q ++ [i] ≠ p := by
            intro he
            refine hq ?_
            rw [← he]
            simp
          simp [hne])]
        exact hcl q hqp
  | capture t cc =>
    have hframe1 : ∀ q, ¬(p <+: q) →
        ((st.setNode p fun n =>
          { n with status := .used, childPropagated := true }).nodes q)
          = st.nodes q := by
      intro q hq
      have hqne : q ≠ p := fun he => hq (he ▸ List.prefix_refl p)
      simp [hqne]
    have hused1 : (((st.setNode p fun n =>
        { n with status := .used, childPropagated := true })).nodes p).status
          = .used := by simp
    refine ⟨st.setNode p fun n =>
        { n with status := .used, childPropagated := true },
      by simp [unblockNode, hp], hused1, hframe1, ?_, ?_, ?_,
      nodeClauseW_parent_pres hcl hp hframe1 hused1⟩
    · intro q hq
      have hqne : q ≠ p := by
        intro he
        rw [he, hp] at hq
        exact absurd hq (by simp)
      simp [hqne]
    · intro q
      by_cases hqp : q = p
      · subst hqp
        exact Or.inr hused1
      · exact Or.inl (by simp [hqp])
    · intro q hq
      by_cases hqp : q = p
      · subst hqp
        exact nodeClause_not_pending (by simp)
      · have hqe : (st.setNode p fun n =>
            { n with status := .used, childPropagated := true }).nodes q
              = st.nodes q := by simp [hqp]
        rw [nodeClause_congr2 hqe (fun i => by
          have hne : q ++ [i] ≠ p := by
            intro he
            refine hq ?_
            rw [← he]
            simp
          simp [hne])]
        exact hcl q hqp
  | family k cs =>
    have hclw' := hclw
    rw [nodeClauseW, hsh] at hclw'
    dsimp only at hclw'
    have hunused := hclw' hp
    have hagree1 : ∀ r j, (0 : Nat) ≤ j → (p ++ [j]) <+: r →
        (st.setNode p fun n =>
          { n with status := .used, recorded := [] }).nodes r = st.nodes r := by
      intro r j _ hr
      have : r ≠ p := fun heq => not_append_singleton_prefix p j (heq ▸ hr)
      simp [this]
    obtain ⟨st2, h2run, h2used, h2leaf, h2frame⟩ :=
      unblockKids_spec cs 0 (st.nodes p).created p H
        (st.setNode p fun n => { n with status := .used, recorded := [] })
        (fun j c' hj => by
          have := subShape_child_family hsh hj
          simpa using this)
        (fun q j hij hq => by
          rw [nodeClause_congr (fun r hr =>
            hagree1 r j hij (List.IsPrefix.trans hq hr))]
          refine hcl q ?_
          intro he
          exact not_append_singleton_prefix p j (he ▸ hq))
        (fun j _ hcj => by
          rw [hagree1 (p ++ [j]) j (by omega) (List.prefix_refl _)]
          rw [hunused j hcj]
          simp)
    have hpnotU : p ∉ reachKids cs 0 p
        (st.setNode p fun n => { n with status := .used, recorded := [] }) := by
      intro hmem
      obtain ⟨j, -, hj⟩ := reachKids_below _ 0 p _ p hmem
      exact not_append_singleton_prefix p j hj
    have hused1 : (st2.nodes p).status = .used := by
      rw [h2frame p hpnotU]
      simp
    have hframe1 : ∀ q, ¬(p <+: q) → st2.nodes q = st.nodes q := by
      intro q hq
      have hqne : q ≠ p := fun he => hq (he ▸ List.prefix_refl p)
      have hnotU : q ∉ reachKids cs 0 p
          (st.setNode p fun n =>
            { n with status := .used, recorded := [] }) := by
        intro hmem
        obtain ⟨j, -, hj⟩ := reachKids_below _ 0 p _ q hmem
        exact hq (List.IsPrefix.trans (by simp) hj)
      rw [h2frame q hnotU]
      simp [hqne]
    refine ⟨st2, ?_, hused1, hframe1, ?_, ?_, ?_,
      nodeClauseW_parent_pres hcl hp hframe1 hused1⟩
    · rw [unblockNode, if_neg (by simp [hp])]
      exact h2run
    · intro q hq
      have hqne : q ≠ p := by
        intro he
        rw [he, hp] at hq
        exact absurd hq (by simp)
      have hnotU : q ∉ reachKids cs 0 p
          (st.setNode p fun n =>
            { n with status := .used, recorded := [] }) := by
        intro hmem
        have hpend := reachKids_pending _ 0 p _ q hmem
        simp only [CState.nodes_setNode, if_neg hqne] at hpend
        rw [hq] at hpend
        exact absurd hpend (by simp)
      rw [h2frame q hnotU]
      simp [hqne]
    · intro q
      by_cases hqp : q = p
      · subst hqp
        exact Or.inr hused1
      · by_cases hqU : q ∈ reachKids cs 0 p
            (st.setNode p fun n => { n with status := .used, recorded := [] })
        · exact Or.inr (h2used q hqU)
        · left
          rw [h2frame q hqU]
          simp [hqp]
    · intro q hq
      by_cases hqp : q = p
      · subst hqp
        exact nodeClause_not_pending (by simp [hused1])
      · by_cases hpre : p <+: q
        · have hlt : p.length < q.length :=
            lt_of_le_of_ne hpre.length_le
              (fun he => hqp ((hpre.eq_of_length he).symm))
          by_cases hqU : q ∈ reachKids cs 0 p
              (st.setNode p fun n => { n with status := .used, recorded := [] })
          · exact nodeClause_not_pending (by simp [h2used q hqU])
          · have hqeq : st2.nodes q = st.nodes q := by
              rw [h2frame q hqU]
              simp [hqp]
            have hkids : ∀ i', st2.nodes (q ++ [i'])
                = st.nodes (q ++ [i']) := by
              intro i'
              have hchne : q ++ [i'] ≠ p := by
                intro he
                have := congrArg List.length he
                simp at this
                omega
              have hchU : q ++ [i'] ∉ reachKids cs 0 p
                  (st.setNode p fun n =>
                    { n with status := .used, recorded := [] }) := by
                intro hmem
                rcases reachKids_parent_mem _ 0 p _ (q ++ [i']) hmem with
                  ⟨j, hj⟩ | hdp
                · have := congrArg List.length hj
                  simp at this
                  omega
                · rw [List.dropLast_concat] at hdp
                  exact hqU hdp
              rw [h2frame _ hchU]
              simp [hchne]
            rw [nodeClause_congr2 hqeq hkids]
            exact hcl q hqp
        · have hqeq : st2.nodes q = st.nodes q := hframe1 q hpre
          have hkids : ∀ i', st2.nodes (q ++ [i'])
              = st.nodes (q ++ [i']) := by
            intro i'
            refine hframe1 _ ?_
            intro hpre2
            rcases prefix_append_singleton_cases hpre2 with hc | hc
            · exact hpre hc
            · refine hq ?_
              rw [hc]
              simp
          rw [nodeClause_congr2 hqeq hkids]
          exact hcl q hqp

theorem unblockNode_pending_of_some {rv : Bool} {c : HintT} {p : List Nat}
    {st st' : CState} (h : unblockNode rv c p st = some st') :
    (st.nodes p).status = .pending := by
  by_contra hnp
  cases c <;> rw [unblockNode] at h <;> rw [if_pos hnp] at h <;>
    exact absurd h (by simp)

theorem FreshUnused_step {st st1 : CState}
    (hfr : FreshUnused st)
    (hufr : ∀ q, (st.nodes q).status = .unused → st1.nodes q = st.nodes q)
    (hchg : ∀ q, st1.nodes q = st.nodes q ∨ (st1.nodes q).status ≠ .unused) :
    FreshUnused st1 := by
  intro q hq
  rcases hchg q with he | he
  · rw [he] at hq ⊢
    exact hfr q hq
  · exact absurd hq he

theorem OrderedBlock_step {st st1 : CState}
    (hob : OrderedBlock st)
    (hufr : ∀ q, (st.nodes q).status = .unused → st1.nodes q = st.nodes q)
    (hchg : ∀ q, st1.nodes q = st.nodes q ∨ (st1.nodes q).status ≠ .unused) :
    OrderedBlock st1 := by
  intro q j hq
  have hqst : (st.nodes q).status = .unused := by
    rcases hchg q with he | he
    · rwa [he] at hq
    · exact absurd hq he
  have hch := hob q j hqst
  rw [hufr _ hch]
  exact hch

theorem CommitOK_step {st st1 : CState}
    (hco : CommitOK st)
    (hroot : (st1.nodes []).status = (st.nodes []).status)
    (hcs : st1.commitStatus = st.commitStatus)
    (hcc : st1.commitEventChild = st.commitEventChild)
    (hef : st1.effects = st.effects) :
    CommitOK st1 := by
  obtain ⟨h1, h2⟩ := hco
  refine ⟨?_, ?_⟩
  · intro h
    rw [hroot] at h
    rw [hcs]
    exact h1 h
  · rw [hcs, hcc, hef]
    exact h2

theorem frames_trans {st st1 st2 : CState}
    (h1u : ∀ q, (st.nodes q).status = .unused → st1.nodes q = st.nodes q)
    (h1c : ∀ q, st1.nodes q = st.nodes q ∨ (st1.nodes q).status ≠ .unused)
    (h2u : ∀ q, (st1.nodes q).status = .unused → st2.nodes q = st1.nodes q)
    (h2c : ∀ q, st2.nodes q = st1.nodes q ∨ (st2.nodes q).status ≠ .unused) :
    (∀ q, (st.nodes q).status = .unused → st2.nodes q = st.nodes q) ∧
    (∀ q, st2.nodes q = st.nodes q ∨ (st2.nodes q).status ≠ .unused) := by
  constructor
  · intro q hq
    have he1 := h1u q hq
    have he2 := h2u q (by rw [he1]; exact hq)
    rw [he2, he1]
  · intro q
    rcases h2c q with he2 | he2
    · rcases h1c q with he1 | he1
      · exact Or.inl (by rw [he2, he1])
      · exact Or.inr (by rw [he2]; exact he1)
    · exact Or.inr he2

/-- The node clause only reads the status, endFalse, childPropagated and
created fields — never the recorded signals. -/
theorem nodeClause_congr3 {h : HintT} {q : List Nat} {st1 st2 : CState}
    (hstat : ∀ r, (st1.nodes r).status = (st2.nodes r).status)
    (hef : ∀ r, (st1.nodes r).endFalse = (st2.nodes r).endFalse)
    (hcp : ∀ r, (st1.nodes r).childPropagated
      = (st2.nodes r).childPropagated)
    (hcr : ∀ r, (st1.nodes r).created = (st2.nodes r).created) :
    nodeClause h q st1 ↔ nodeClause h q st2 := by
  unfold nodeClause
  cases subShape h q with
  | none => simp
  | some hh =>
    cases hh with
    | leaf s => rw [hstat q, hef q]
    | capture t c => rw [hstat q, hcp q, hstat (q ++ [0])]
    | family k cs =>
      rw [hstat q, hcr q]
      constructor <;> intro hcl hp j hj
      · rw [← hstat (q ++ [j])]
        exact hcl hp j hj
      · rw [hstat (q ++ [j])]
        exact hcl hp j hj

theorem nodeClauseW_congr3 {h : HintT} {q : List Nat} {st1 st2 : CState}
    (hstat : ∀ r, (st1.nodes r).status = (st2.nodes r).status)
    (hcr : ∀ r, (st1.nodes r).created = (st2.nodes r).created) :
    nodeClauseW h q st1 ↔ nodeClauseW h q st2 := by
  unfold nodeClauseW
  cases subShape h q with
  | none => simp
  | some hh =>
    cases hh with
    | leaf s => simp
    | capture t c => simp
    | family k cs =>
      rw [hstat q, hcr q]
      constructor <;> intro hcl hp j hj
      · rw [← hstat (q ++ [j])]
        exact hcl hp j hj
      · rw [hstat (q ++ [j])]
        exact hcl hp j hj

/-- At a family node the full node clause is exactly the family clause. -/
theorem nodeClause_of_W_family {H : HintT} {q : List Nat} {k : FamKind}
    {cs : List HintT} {st : CState}
    (hsh : subShape H q = some (.family k cs))
    (hw : nodeClauseW H q st) : nodeClause H q st := by
  rw [nodeClauseW, hsh] at hw
  rw [nodeClause, hsh]
  exact hw

theorem Inv_to_InvX {H : HintT} (ex : List Nat) {st : CState}
    (hinv : Inv H st) : InvX H ex st := by
  obtain ⟨hcl, hfr, hob, hco⟩ := hinv
  refine ⟨fun q _ => hcl q, ?_, hfr, hob, hco⟩
  have h := hcl ex
  unfold nodeClauseW
  cases hsh : subShape H ex with
  | none => trivial
  | some hh =>
    cases hh with
    | leaf s => trivial
    | capture t c => trivial
    | family k cs =>
      rw [nodeClause, hsh] at h
      exact h

/-- Recording a child signal in a family's `#prompts` map (the `recorded`
field) changes no status and preserves the whole invariant. -/
theorem record_step_pres {H : HintT} {q0 : List Nat} {k2 : FamKind}
    {cs2 : List HintT} {st1 : CState} (rec1 : List (Nat × Signal))
    (hshq : subShape H q0 = some (.family k2 cs2))
    (hinv1 : InvX H q0 st1)
    (hqpend : (st1.nodes q0).status = .pending) :
    InvX H q0 (st1.setNode q0 fun n => { n with recorded := rec1 }) ∧
    Inv H (st1.setNode q0 fun n => { n with recorded := rec1 }) ∧
    (∀ q, (st1.nodes q).status = .unused →
      (st1.setNode q0 fun n => { n with recorded := rec1 }).nodes q
        = st1.nodes q) ∧
    (∀ q, (st1.setNode q0 fun n => { n with recorded := rec1 }).nodes q
        = st1.nodes q ∨
      ((st1.setNode q0 fun n => { n with recorded := rec1 }).nodes q).status
        ≠ .unused) := by
  obtain ⟨hcl1, hclw1, hfr1, hob1, hco1⟩ := hinv1
  have hstat : ∀ r, ((st1.setNode q0 fun n =>
      { n with recorded := rec1 }).nodes r).status = (st1.nodes r).status := by
    intro r
    by_cases hr : r = q0 <;> simp [hr]
  have hef : ∀ r, ((st1.setNode q0 fun n =>
      { n with recorded := rec1 }).nodes r).endFalse
        = (st1.nodes r).endFalse := by
    intro r
    by_cases hr : r = q0 <;> simp [hr]
  have hcpp : ∀ r, ((st1.setNode q0 fun n =>
      { n with recorded := rec1 }).nodes r).childPropagated
        = (st1.nodes r).childPropagated := by
    intro r
    by_cases hr : r = q0 <;> simp [hr]
  have hcrr : ∀ r, ((st1.setNode q0 fun n =>
      { n with recorded := rec1 }).nodes r).created
        = (st1.nodes r).created := by
    intro r
    by_cases hr : r = q0 <;> simp [hr]
  have hufr : ∀ q, (st1.nodes q).status = .unused →
      (st1.setNode q0 fun n => { n with recorded := rec1 }).nodes q
        = st1.nodes q := by
    intro q hq
    have hne : q ≠ q0 := by
      intro he
      rw [he, hqpend] at hq
      exact absurd hq (by simp)
    simp [hne]
  have hchg : ∀ q, (st1.setNode q0 fun n =>
        { n with recorded := rec1 }).nodes q = st1.nodes q ∨
      ((st1.setNode q0 fun n =>
        { n with recorded := rec1 }).nodes q).status ≠ .unused := by
    intro q
    by_cases hq : q = q0
    · right
      rw [hstat q, hq, hqpend]
      simp
    · exact Or.inl (by simp [hq])
  have hclS : ∀ q, q ≠ q0 → nodeClause H q
      (st1.setNode q0 fun n => { n with recorded := rec1 }) :=
    fun q hq => (nodeClause_congr3 hstat hef hcpp hcrr).mpr (hcl1 q hq)
  have hclwS : nodeClauseW H q0
      (st1.setNode q0 fun n => { n with recorded := rec1 }) :=
    (nodeClauseW_congr3 hstat hcrr).mpr hclw1
  have hfrS := FreshUnused_step hfr1 hufr hchg
  have hobS := OrderedBlock_step hob1 hufr hchg
  have hcoS := CommitOK_step hco1 (hstat []) (by simp) (by simp) (by simp)
  refine ⟨⟨hclS, hclwS, hfrS, hobS, hcoS⟩,
    ⟨?_, hfrS, hobS, hcoS⟩, hufr, hchg⟩
  intro q
  by_cases hq : q = q0
  · rw [hq]
    exact nodeClause_of_W_family hshq hclwS
  · exact hclS q hq

/-- `Event.reveal` preserves the invariant: started at a node where the full
invariant holds except possibly the parent-facing clause of that node, a
successful revelation re-establishes the invariant everywhere, leaves unused
nodes untouched and never turns a node back to unused. -/
theorem reveal_pres (H : HintT) (rp : List Nat) (s : Signal) (st st' : CState)
    (hinv : InvX H rp.reverse st)
    (hrun : reveal H rp s st = some st') :
    Inv H st' ∧
    (∀ q, (st.nodes q).status = .unused → st'.nodes q = st.nodes q) ∧
    (∀ q, st'.nodes q = st.nodes q ∨ (st'.nodes q).status ≠ .unused) := by
  induction rp generalizing s st st' with
  | nil =>
    simp only [List.reverse_nil] at hinv
    obtain ⟨hcl, hclw, hfr, hob, hco⟩ := hinv
    rw [reveal] at hrun
    simp only [List.reverse_nil, subShape] at hrun
    have hpend : (st.nodes ([] : List Nat)).status = .pending := by
      cases hu : unblockNode true H [] st with
      | none => rw [hu] at hrun; exact absurd hrun (by simp)
      | some st1 => exact unblockNode_pending_of_some hu
    obtain ⟨st1, h1run, h1used, h1frame, h1ufr, h1chg, h1cl, h1clw⟩ :=
      unblockNode_true_pres H [] H st (by simp [subShape]) hcl hclw hpend
    rw [h1run] at hrun
    obtain ⟨hcsf, hccf, heff⟩ := unblockNode_commitFrame true H [] st st1 h1run
    dsimp only at hrun
    split at hrun
    · exact absurd hrun (by simp)
    · split at hrun
      · exact absurd hrun (by simp)
      · rename_i hcc hcs
        have hcs1 : st1.commitStatus = .pending := not_not.mp hcs
        have hfx : st.effects = [] := by
          rcases hco.2 with ⟨-, h2, -⟩ | ⟨h2, -⟩
          · exact h2
          · rw [hcsf] at hcs1
            rw [hcs1] at h2
            exact absurd h2 (by simp)
        simp only [Option.some.injEq] at hrun
        subst hrun
        have h1chgW : ∀ q, st1.nodes q = st.nodes q ∨
            (st1.nodes q).status ≠ .unused :=
          fun q => (h1chg q).imp_right (fun hu => by simp [hu])
        refine ⟨⟨?_, ?_, ?_, ?_⟩, ?_, ?_⟩
        · intro q
          by_cases hq : q = ([] : List Nat)
          · subst hq
            exact nodeClause_not_pending (by simp [h1used])
          · exact h1cl q (by simpa using hq)
        · exact FreshUnused_step hfr h1ufr h1chgW
        · exact OrderedBlock_step hob h1ufr h1chgW
        · refine ⟨fun _ => rfl, Or.inr ⟨rfl, s, ?_⟩⟩
          show st1.effects ++ [s] = [s]
          rw [heff, hfx]
          simp
        · intro q hq
          exact h1ufr q hq
        · intro q
          exact h1chgW q
  | cons i rest ih =>
    rw [List.reverse_cons] at hinv
    obtain ⟨hcl, hclw, hfr, hob, hco⟩ := hinv
    rw [reveal] at hrun
    simp only [List.reverse_cons] at hrun
    cases hshp : subShape H (rest.reverse ++ [i]) with
    | none => rw [hshp] at hrun; exact absurd hrun (by simp)
    | some cp =>
      rw [hshp] at hrun
      dsimp only at hrun
      have hpend : (st.nodes (rest.reverse ++ [i])).status = .pending := by
        cases hu : unblockNode true cp (rest.reverse ++ [i]) st with
        | none => rw [hu] at hrun; exact absurd hrun (by simp)
        | some st1 => exact unblockNode_pending_of_some hu
      obtain ⟨st1, h1run, h1used, h1frame, h1ufr, h1chg, h1cl, h1clw⟩ :=
        unblockNode_true_pres cp (rest.reverse ++ [i]) H st hshp hcl hclw hpend
      rw [List.dropLast_concat] at h1cl h1clw
      rw [h1run] at hrun
      dsimp only at hrun
      obtain ⟨hcsf, hccf, heff⟩ :=
        unblockNode_commitFrame true cp (rest.reverse ++ [i]) st st1 h1run
      have h1chgW : ∀ q, st1.nodes q = st.nodes q ∨
          (st1.nodes q).status ≠ .unused :=
        fun q => (h1chg q).imp_right (fun hu => by simp [hu])
      have hroot1 : (st1.nodes []).status = (st.nodes []).status := by
        have h := h1frame [] (by
          intro hpre
          have := hpre.length_le
          simp at this)
        rw [h]
      have hinv1 : InvX H rest.reverse st1 :=
        ⟨h1cl, h1clw, FreshUnused_step hfr h1ufr h1chgW,
          OrderedBlock_step hob h1ufr h1chgW,
          CommitOK_step hco hroot1 hcsf hccf heff⟩
      cases hshq : subShape H rest.reverse with
      | none => rw [hshq] at hrun; exact absurd hrun (by simp)
      | some cq =>
        rw [hshq] at hrun
        cases cq with
        | leaf s2 =>
          dsimp only at hrun
          exact absurd hrun (by simp)
        | capture trap c2 =>
          dsimp only at hrun
          split at hrun
          · exact absurd hrun (by simp)
          · split at hrun
            · exact absurd hrun (by simp)
            · obtain ⟨hInv2, hufr2, hchg2⟩ := ih (trap s) st1 st' hinv1 hrun
              obtain ⟨hcu, hcc2⟩ := frames_trans h1ufr h1chgW hufr2 hchg2
              exact ⟨hInv2, hcu, hcc2⟩
        | family k2 cs2 =>
          dsimp only at hrun
          split at hrun
          · exact absurd hrun (by simp)
          · split at hrun
            · exact absurd hrun (by simp)
            · rename_i hqpend2 hqmem
              have hqpend : (st1.nodes rest.reverse).status = .pending :=
                not_not.mp hqpend2
              cases k2 with
              | raceF =>
                dsimp only at hrun
                obtain ⟨hInv2, hufr2, hchg2⟩ := ih s st1 st' hinv1 hrun
                obtain ⟨hcu, hcc2⟩ := frames_trans h1ufr h1chgW hufr2 hchg2
                exact ⟨hInv2, hcu, hcc2⟩
              | allF =>
                dsimp only at hrun
                cases s with
                | blooper e =>
                  dsimp only at hrun
                  obtain ⟨hInv2, hufr2, hchg2⟩ := ih _ st1 st' hinv1 hrun
                  obtain ⟨hcu, hcc2⟩ := frames_trans h1ufr h1chgW hufr2 hchg2
                  exact ⟨hInv2, hcu, hcc2⟩
                | prompt v =>
                  dsimp only at hrun
                  obtain ⟨hinv2, hInv2, h2ufr, h2chg⟩ :=
                    record_step_pres
                      ((st1.nodes rest.reverse).recorded ++ [(i, .prompt v)])
                      hshq hinv1 hqpend
                  split at hrun
                  · obtain ⟨hInv3, hufr3, hchg3⟩ := ih _ _ st' hinv2 hrun
                    obtain ⟨hcu1, hcc1⟩ := frames_trans h2ufr h2chg hufr3 hchg3
                    obtain ⟨hcu, hcc2⟩ := frames_trans h1ufr h1chgW hcu1 hcc1
                    exact ⟨hInv3, hcu, hcc2⟩
                  · simp only [Option.some.injEq] at hrun
                    subst hrun
                    obtain ⟨hcu, hcc2⟩ := frames_trans h1ufr h1chgW h2ufr h2chg
                    exact ⟨hInv2, hcu, hcc2⟩
              | anyF =>
                dsimp only at hrun
                cases s with
                | prompt v =>
                  dsimp only at hrun
                  obtain ⟨hInv2, hufr2, hchg2⟩ := ih _ st1 st' hinv1 hrun
                  obtain ⟨hcu, hcc2⟩ := frames_trans h1ufr h1chgW hufr2 hchg2
                  exact ⟨hInv2, hcu, hcc2⟩
                | blooper e =>
                  dsimp only at hrun
                  obtain ⟨hinv2, hInv2, h2ufr, h2chg⟩ :=
                    record_step_pres
                      ((st1.nodes rest.reverse).recorded ++ [(i, .blooper e)])
                      hshq hinv1 hqpend
                  split at hrun
                  · obtain ⟨hInv3, hufr3, hchg3⟩ := ih _ _ st' hinv2 hrun
                    obtain ⟨hcu1, hcc1⟩ := frames_trans h2ufr h2chg hufr3 hchg3
                    obtain ⟨hcu, hcc2⟩ := frames_trans h1ufr h1chgW hcu1 hcc1
                    exact ⟨hInv3, hcu, hcc2⟩
                  · simp only [Option.some.injEq] at hrun
                    subst hrun
                    obtain ⟨hcu, hcc2⟩ := frames_trans h1ufr h1chgW h2ufr h2chg
                    exact ⟨hInv2, hcu, hcc2⟩
              | settleF =>
                dsimp only at hrun
                obtain ⟨hinv2, hInv2, h2ufr, h2chg⟩ :=
                  record_step_pres
                    ((st1.nodes rest.reverse).recorded ++ [(i, s)])
                    hshq hinv1 hqpend
                split at hrun
                · obtain ⟨hInv3, hufr3, hchg3⟩ := ih _ _ st' hinv2 hrun
                  obtain ⟨hcu1, hcc1⟩ := frames_trans h2ufr h2chg hufr3 hchg3
                  obtain ⟨hcu, hcc2⟩ := frames_trans h1ufr h1chgW hcu1 hcc1
                  exact ⟨hInv3, hcu, hcc2⟩
                · simp only [Option.some.injEq] at hrun
                  subst hrun
                  obtain ⟨hcu, hcc2⟩ := frames_trans h1ufr h1chgW h2ufr h2chg
                  exact ⟨hInv2, hcu, hcc2⟩

theorem nodeClauseB_of_clause {H : HintT} {q : List Nat} {st : CState}
    (h : nodeClause H q st) : nodeClauseB H q st := by
  unfold nodeClauseB
  cases hsh : subShape H q with
  | none => trivial
  | some hh =>
    rw [nodeClause, hsh] at h
    cases hh with
    | leaf s => exact h
    | capture t c =>
      intro hp
      obtain ⟨h1, h2⟩ := h hp
      refine ⟨h1, ?_⟩
      rw [h2]
      simp
    | family k cs => exact h

theorem statusEvol_trans {st st1 st2 : CState}
    (h1 : ∀ q, (st1.nodes q).status = (st.nodes q).status ∨
      ((st.nodes q).status = .unused ∧ (st1.nodes q).status = .pending))
    (h2 : ∀ q, (st2.nodes q).status = (st1.nodes q).status ∨
      ((st1.nodes q).status = .unused ∧ (st2.nodes q).status = .pending)) :
    ∀ q, (st2.nodes q).status = (st.nodes q).status ∨
      ((st.nodes q).status = .unused ∧ (st2.nodes q).status = .pending) := by
  intro q
  rcases h2 q with ha | ⟨ha, hb⟩
  · rcases h1 q with hc | ⟨hc, hd⟩
    · exact Or.inl (ha.trans hc)
    · exact Or.inr ⟨hc, ha.trans hd⟩
  · rcases h1 q with hc | ⟨hc, hd⟩
    · refine Or.inr ⟨?_, hb⟩
      rw [← hc]
      exact ha
    · rw [hd] at ha
      exact absurd ha (by simp)

theorem validKids_get (cs : List HintT) (i : Nat) (r : List Nat)
    (h : validKids cs i r = true) :
    ∃ ci, cs.get? i = some ci ∧ validPath ci r = true := by
  induction cs generalizing i with
  | nil => rw [validKids] at h; exact absurd h (by simp)
  | cons c rest ih =>
    cases i with
    | zero =>
      refine ⟨c, rfl, ?_⟩
      rw [validKids] at h
      exact h
    | succ j =>
      obtain ⟨ci, h1, h2⟩ := ih j (by rw [validKids] at h; exact h)
      exact ⟨ci, by simpa using h1, h2⟩

theorem validKids_intro (cs : List HintT) (m : Nat) (r : List Nat)
    (ci : HintT) (hget : cs.get? m = some ci) (hv : validPath ci r = true) :
    validKids cs m r = true := by
  induction cs generalizing m with
  | nil => simp [List.get?_eq_getElem?] at hget
  | cons c rest ih =>
    cases m with
    | zero =>
      rw [validKids]
      have : c = ci := by simpa using hget
      rw [this]
      exact hv
    | succ j =>
      rw [validKids]
      exact ih j (by simpa using hget)

theorem subShape_capture_child_index {H : HintT} {pre : List Nat} {iN : Nat}
    {t : Signal → Signal} {cc c0 : HintT}
    (hpre : subShape H pre = some (.capture t cc))
    (hch : subShape H (pre ++ [iN]) = some c0) : iN = 0 := by
  by_contra hne
  rw [subShape_append, hpre] at hch
  simp [subShape, hne] at hch

theorem blockNodeOnly_commitFrame (q0 : List Nat) (st : CState) :
    (blockNodeOnly q0 st).commitStatus = st.commitStatus ∧
    (blockNodeOnly q0 st).commitEventChild = st.commitEventChild ∧
    (blockNodeOnly q0 st).effects = st.effects := by
  unfold blockNodeOnly
  split <;> exact ⟨rfl, rfl, rfl⟩

theorem blockPath_commitFrame (c : HintT) (r p0 : List Nat) (st : CState) :
    (blockPath c r p0 st).commitStatus = st.commitStatus ∧
    (blockPath c r p0 st).commitEventChild = st.commitEventChild ∧
    (blockPath c r p0 st).effects = st.effects := by
  induction r generalizing c p0 st with
  | nil => rw [blockPath]; exact blockNodeOnly_commitFrame p0 st
  | cons i r ih =>
    cases c with
    | leaf s => rw [blockPath]; exact blockNodeOnly_commitFrame p0 st
    | capture t cc =>
      rw [blockPath]
      obtain ⟨a, b, c2⟩ := ih cc (p0 ++ [i]) (blockNodeOnly p0 st)
      obtain ⟨d, e, f⟩ := blockNodeOnly_commitFrame p0 st
      exact ⟨a.trans d, b.trans e, c2.trans f⟩
    | family k cs =>
      rw [blockPath]
      obtain ⟨d, e, f⟩ := blockNodeOnly_commitFrame p0 st
      cases hg : cs.get? i with
      | none =>
        split
        · rename_i c3 heq
          exact absurd heq (by simp)
        · split
          · exact ⟨by rw [CState.commitStatus_setNode]; exact d,
              by rw [CState.commitEventChild_setNode]; exact e,
              by rw [CState.effects_setNode]; exact f⟩
          · exact ⟨d, e, f⟩
      | some c2 =>
        split
        · rename_i c3 heq
          rw [Option.some.injEq] at heq
          subst heq
          split
          · obtain ⟨a, b, c4⟩ := ih c2 (p0 ++ [i])
              ((blockNodeOnly p0 st).setNode p0 fun n =>
                { n with created := Nat.max n.created (i + 1) })
            exact ⟨a.trans (by rw [CState.commitStatus_setNode]; exact d),
              b.trans (by rw [CState.commitEventChild_setNode]; exact e),
              c4.trans (by rw [CState.effects_setNode]; exact f)⟩
          · obtain ⟨a, b, c4⟩ := ih c2 (p0 ++ [i]) (blockNodeOnly p0 st)
            exact ⟨a.trans d, b.trans e, c4.trans f⟩
        · rename_i heq
          exact absurd heq (by simp)

/-- `Event.block` on one node preserves everything except the clause of the
node itself — which may be a capture whose child is only blocked next — and
leaves the node non-unused. -/
theorem blockNodeOnly_pres (p0 : List Nat) (H : HintT) (st : CState)
    (hsh0 : ∃ c0, subShape H p0 = some c0)
    (hcl : ∀ q, q ≠ p0.dropLast → nodeClause H q st)
    (hclB : nodeClauseB H p0.dropLast st)
    (hfr : FreshUnused st)
    (hob : OrderedBlock st)
    (hpar : ∀ pre iN, pre ++ [iN] = p0 →
      (st.nodes pre).status ≠ .unused ∧
      ((st.nodes pre).status = .pending →
        ∀ k2 cs2, subShape H pre = some (.family k2 cs2) →
          iN < (st.nodes pre).created)) :
    (∀ q, q ≠ p0 → nodeClause H q (blockNodeOnly p0 st)) ∧
    nodeClauseB H p0 (blockNodeOnly p0 st) ∧
    FreshUnused (blockNodeOnly p0 st) ∧
    OrderedBlock (blockNodeOnly p0 st) ∧
    (∀ q, q ≠ p0 → (blockNodeOnly p0 st).nodes q = st.nodes q) ∧
    ((blockNodeOnly p0 st).nodes p0 = st.nodes p0 ∨
      ((st.nodes p0).status = .unused ∧
        (blockNodeOnly p0 st).nodes p0
          = { st.nodes p0 with status := .pending })) ∧
    ((st.nodes p0).status ≠ .used →
      ((blockNodeOnly p0 st).nodes p0).status = .pending) ∧
    ((blockNodeOnly p0 st).nodes p0).status ≠ .unused := by
  have hBp0 : nodeClauseB H p0 st := by
    by_cases he : p0.dropLast = p0
    · exact he ▸ hclB
    · exact nodeClauseB_of_clause (hcl p0 fun hx => he hx.symm)
  unfold blockNodeOnly
  by_cases hu : (st.nodes p0).status = .unused
  · rw [if_pos hu]
    have hinit : st.nodes p0 = NodeSt.init := hfr p0 hu
    refine ⟨?_, ?_, ?_, ?_, fun q hq => by simp [hq], ?_, by simp, by simp⟩
    · -- all clauses except at p0
      intro q hq
      by_cases hqd : q = p0.dropLast
      · -- the parent: its clause is restored because p0 is now pending
        have hp0ne : p0 ≠ [] := by
          intro he
          rw [he] at hqd
          simp at hqd
          rw [hqd] at hq
          rw [he] at hq
          exact hq rfl
        have hp0eq : q ++ [p0.getLast hp0ne] = p0 := by
          rw [hqd]
          exact List.dropLast_append_getLast hp0ne
        have hqfr : (st.setNode p0 fun n =>
            { n with status := .pending }).nodes q = st.nodes q := by
          simp [hq]
        have hclBq : nodeClauseB H q st := by
          rw [hqd]
          exact hclB
        unfold nodeClause
        cases hshd : subShape H q with
        | none => trivial
        | some hh =>
          rw [nodeClauseB, hshd] at hclBq
          cases hh with
          | leaf s =>
            intro hp
            rw [hqfr] at hp
            rw [hqfr]
            exact hclBq hp
          | capture t cc =>
            intro hp
            rw [hqfr] at hp
            obtain ⟨h1, -⟩ := hclBq hp
            obtain ⟨c0, hc0⟩ := hsh0
            have hiz : p0.getLast hp0ne = 0 :=
              subShape_capture_child_index hshd (hp0eq ▸ hc0)
            have hch : q ++ [0] = p0 := by
              rw [← hiz]
              exact hp0eq
            constructor
            · rw [hqfr]
              exact h1
            · rw [hch]
              simp
          | family k2 cs2 =>
            intro hp j hj
            rw [hqfr] at hp hj
            have hpar2 := (hpar q (p0.getLast hp0ne) hp0eq).2 hp k2 cs2 hshd
            have hne2 : q ++ [j] ≠ p0 := by
              intro he
              have h3 := he.trans hp0eq.symm
              have hj2 := List.append_inj_right h3 rfl
              simp at hj2
              omega
            simp only [CState.nodes_setNode, if_neg hne2]
            exact hclBq hp j hj
      · -- away from parent and node: transfer the old clause
        have hqe : (st.setNode p0 fun n =>
            { n with status := .pending }).nodes q = st.nodes q := by
          simp [hq]
        rw [nodeClause_congr2 hqe (fun j => by
          have : q ++ [j] ≠ p0 := by
            intro he
            refine hqd ?_
            rw [← he]
            simp
          simp [this])]
        exact hcl q hqd
    · -- the blocked-walk clause at p0
      unfold nodeClauseB
      cases hshp : subShape H p0 with
      | none => trivial
      | some hh =>
        cases hh with
        | leaf s =>
          intro _
          simp [hinit, NodeSt.init]
        | capture t cc =>
          intro _
          constructor
          · simp [hinit, NodeSt.init]
          · have hchild := hob p0 0 hu
            have : p0 ++ [0] ≠ p0 := by simp
            simp [this]
            rw [hchild]
            simp
        | family k2 cs2 =>
          intro _ j _
          have hchild := hob p0 j hu
          have : p0 ++ [j] ≠ p0 := by simp
          simp [this]
          exact hchild
    · -- fresh unused nodes
      intro q hq
      by_cases hqp : q = p0
      · rw [hqp] at hq
        simp at hq
      · simp [hqp] at hq ⊢
        exact hfr q hq
    · -- ordered blocking
      intro q j hq
      by_cases hqp : q = p0
      · rw [hqp] at hq
        simp at hq
      · simp [hqp] at hq
        have hch := hob q j hq
        have hne : q ++ [j] ≠ p0 := by
          intro he
          exact (hpar q j he).1 hq
        simp [hne]
        exact hch
    · exact Or.inr ⟨hu, by simp⟩
  · rw [if_neg hu]
    refine ⟨?_, hBp0, hfr, hob, fun q _ => rfl, Or.inl rfl, ?_, hu⟩
    · intro q hq
      by_cases hqd : q = p0.dropLast
      · have hp0ne : p0 ≠ [] := by
          intro he
          rw [he] at hqd
          simp at hqd
          rw [hqd] at hq
          rw [he] at hq
          exact hq rfl
        have hp0eq : q ++ [p0.getLast hp0ne] = p0 := by
          rw [hqd]
          exact List.dropLast_append_getLast hp0ne
        have hclBq : nodeClauseB H q st := by
          rw [hqd]
          exact hclB
        unfold nodeClause
        cases hshd : subShape H q with
        | none => trivial
        | some hh =>
          rw [nodeClauseB, hshd] at hclBq
          cases hh with
          | leaf s => exact hclBq
          | capture t cc =>
            intro hp
            obtain ⟨h1, h2⟩ := hclBq hp
            obtain ⟨c0, hc0⟩ := hsh0
            have hiz : p0.getLast hp0ne = 0 :=
              subShape_capture_child_index hshd (hp0eq ▸ hc0)
            have hch : q ++ [0] = p0 := by
              rw [← hiz]
              exact hp0eq
            refine ⟨h1, ?_⟩
            rw [hch]
            rw [hch] at h2
            cases hstat : (st.nodes p0).status with
            | unused => exact absurd hstat hu
            | pending => rfl
            | used => exact absurd hstat h2
          | family k2 cs2 => exact hclBq
      · exact hcl q hqd
    · intro hus
      cases hstat : (st.nodes p0).status with
      | unused => exact absurd hstat hu
      | pending => rfl
      | used => exact absurd hstat hus

theorem append_singleton_eq {p q : List Nat} {a b : Nat}
    (h : p ++ [a] = q ++ [b]) : p = q ∧ a = b := by
  have hl : p.length = q.length := by
    have := congrArg List.length h
    simp at this
    exact this
  obtain ⟨h1, h2⟩ := List.append_inj h hl
  simp at h2
  exact ⟨h1, h2⟩

/-- The node clause reads only its own node's fields and the statuses of
other nodes. -/
theorem nodeClause_congr4 {h : HintT} {q : List Nat} {st1 st2 : CState}
    (hstat : ∀ r, (st1.nodes r).status = (st2.nodes r).status)
    (hq : st1.nodes q = st2.nodes q) :
    nodeClause h q st1 ↔ nodeClause h q st2 := by
  unfold nodeClause
  cases subShape h q with
  | none => simp
  | some hh =>
    cases hh with
    | leaf s => rw [hq]
    | capture t c => rw [hq, hstat (q ++ [0])]
    | family k cs =>
      rw [hq]
      constructor <;> intro hcl hp j hj
      · rw [← hstat (q ++ [j])]
        exact hcl hp j hj
      · rw [hstat (q ++ [j])]
        exact hcl hp j hj

/-- `ParentEvent.flatten`'s walk to the next leaf: blocking every event on
the path preserves the invariant — the clause of each capture on the path is
restored as soon as its child is blocked right after it — touches only the
subtree below the entry node, only turns unused nodes pending, and leaves the
entry node pending unless it was already used. -/
theorem blockPath_pres (r : List Nat) (c : HintT) (p0 : List Nat) (H : HintT)
    (st : CState)
    (hsh : subShape H p0 = some c)
    (hval : validPath c r = true)
    (hcl : ∀ q, q ≠ p0.dropLast → nodeClause H q st)
    (hclB : nodeClauseB H p0.dropLast st)
    (hfr : FreshUnused st)
    (hob : OrderedBlock st)
    (hpar : ∀ pre iN, pre ++ [iN] = p0 →
      (st.nodes pre).status ≠ .unused ∧
      ((st.nodes pre).status = .pending →
        ∀ k2 cs2, subShape H pre = some (.family k2 cs2) →
          iN < (st.nodes pre).created)) :
    (∀ q, nodeClause H q (blockPath c r p0 st)) ∧
    FreshUnused (blockPath c r p0 st) ∧
    OrderedBlock (blockPath c r p0 st) ∧
    (∀ q, ¬(p0 <+: q) → (blockPath c r p0 st).nodes q = st.nodes q) ∧
    (∀ q, ((blockPath c r p0 st).nodes q).status = (st.nodes q).status ∨
      ((st.nodes q).status = .unused ∧
        ((blockPath c r p0 st).nodes q).status = .pending)) ∧
    ((st.nodes p0).status ≠ .used →
      ((blockPath c r p0 st).nodes p0).status = .pending) ∧
    ((blockPath c r p0 st).nodes p0).status ≠ .unused := by
  induction r generalizing c p0 st with
  | nil =>
    obtain ⟨c1, c2, c3, c4, c5, c6, c7, c8⟩ :=
      blockNodeOnly_pres p0 H st ⟨c, hsh⟩ hcl hclB hfr hob hpar
    cases c with
    | capture t cc => simp [validPath] at hval
    | family k cs => simp [validPath] at hval
    | leaf s =>
      rw [blockPath]
      refine ⟨?_, c3, c4, ?_, ?_, c7, c8⟩
      · intro q
        by_cases hq : q = p0
        · subst hq
          rw [nodeClause, hsh]
          have hB := c2
          rw [nodeClauseB, hsh] at hB
          exact hB
        · exact c1 q hq
      · intro q hq
        exact c5 q (fun he => hq (he ▸ List.prefix_refl p0))
      · intro q
        by_cases hq : q = p0
        · subst hq
          rcases c6 with he | ⟨hu, he⟩
          · exact Or.inl (by rw [he])
          · exact Or.inr ⟨hu, by rw [he]⟩
        · exact Or.inl (by rw [c5 q hq])
  | cons i r' ih =>
    cases c with
    | leaf s => simp [validPath] at hval
    | capture t cc =>
      cases i with
      | succ j => simp [validPath] at hval
      | zero =>
        have hval' : validPath cc r' = true := by
          simp only [validPath] at hval
          exact hval
        obtain ⟨c1, c2, c3, c4, c5, c6, c7, c8⟩ :=
          blockNodeOnly_pres p0 H st ⟨.capture t cc, hsh⟩ hcl hclB hfr hob hpar
        have hbp : blockPath (.capture t cc) (0 :: r') p0 st
            = blockPath cc r' (p0 ++ [0]) (blockNodeOnly p0 st) := by
          rw [blockPath]
        have hdl : (p0 ++ [0]).dropLast = p0 := by simp
        obtain ⟨i1, i2, i3, i4, i5, i6, i7⟩ :=
          ih cc (p0 ++ [0]) (blockNodeOnly p0 st)
            (subShape_child_capture hsh) hval'
            (by rw [hdl]; exact c1)
            (by rw [hdl]; exact c2)
            c3 c4
            (fun pre iN hpre => by
              obtain ⟨hpq, hiz⟩ := append_singleton_eq hpre
              subst hpq
              refine ⟨c8, ?_⟩
              intro hpend k2 cs2 hshf
              rw [hsh] at hshf
              exact absurd hshf (by simp))
        rw [hbp]
        have hevolb : ∀ q,
            ((blockNodeOnly p0 st).nodes q).status = (st.nodes q).status ∨
            ((st.nodes q).status = .unused ∧
              ((blockNodeOnly p0 st).nodes q).status = .pending) := by
          intro q
          by_cases hq : q = p0
          · subst hq
            rcases c6 with he | ⟨hu, he⟩
            · exact Or.inl (by rw [he])
            · exact Or.inr ⟨hu, by rw [he]⟩
          · exact Or.inl (by rw [c5 q hq])
        have hp0out : ¬((p0 ++ [0]) <+: p0) := not_append_singleton_prefix p0 0
        refine ⟨i1, i2, i3, ?_, statusEvol_trans hevolb i5, ?_, ?_⟩
        · intro q hq
          rw [i4 q (fun hpre => hq (List.IsPrefix.trans (by simp) hpre))]
          exact c5 q (fun he => hq (he ▸ List.prefix_refl p0))
        · intro hus
          rw [i4 p0 hp0out]
          exact c7 hus
        · rw [i4 p0 hp0out]
          exact c8
    | family k cs =>
      have hval' : validKids cs i r' = true := by
        simp only [validPath] at hval
        exact hval
      obtain ⟨ci, hget, hvci⟩ := validKids_get cs i r' hval'
      obtain ⟨c1, c2, c3, c4, c5, c6, c7, c8⟩ :=
        blockNodeOnly_pres p0 H st ⟨.family k cs, hsh⟩ hcl hclB hfr hob hpar
      have hdl : (p0 ++ [i]).dropLast = p0 := by simp
      have hevolb : ∀ q,
          ((blockNodeOnly p0 st).nodes q).status = (st.nodes q).status ∨
          ((st.nodes q).status = .unused ∧
            ((blockNodeOnly p0 st).nodes q).status = .pending) := by
        intro q
        by_cases hq : q = p0
        · subst hq
          rcases c6 with he | ⟨hu, he⟩
          · exact Or.inl (by rw [he])
          · exact Or.inr ⟨hu, by rw [he]⟩
        · exact Or.inl (by rw [c5 q hq])
      have hc2fam := c2
      rw [nodeClauseB, hsh] at hc2fam
      have hp0out : ¬((p0 ++ [i]) <+: p0) := not_append_singleton_prefix p0 i
      rw [blockPath]
      simp only [hget]
      by_cases hcu : ((blockNodeOnly p0 st).nodes (p0 ++ [i])).status = .unused
      · rw [if_pos hcu]
        have hSstat : ∀ q2, (((blockNodeOnly p0 st).setNode p0 fun n =>
            { n with created := Nat.max n.created (i + 1) }).nodes q2).status
              = ((blockNodeOnly p0 st).nodes q2).status := by
          intro q2
          by_cases hq2 : q2 = p0 <;> simp [hq2]
        have hSframe : ∀ q2, q2 ≠ p0 →
            ((blockNodeOnly p0 st).setNode p0 fun n =>
              { n with created := Nat.max n.created (i + 1) }).nodes q2
                = (blockNodeOnly p0 st).nodes q2 := by
          intro q2 hq2
          simp [hq2]
        have hScreated : (((blockNodeOnly p0 st).setNode p0 fun n =>
            { n with created := Nat.max n.created (i + 1) }).nodes p0).created
              = Nat.max ((blockNodeOnly p0 st).nodes p0).created (i + 1) := by
          simp
        have hSB : nodeClauseB H p0
            ((blockNodeOnly p0 st).setNode p0 fun n =>
              { n with created := Nat.max n.created (i + 1) }) := by
          rw [nodeClauseB, hsh]
          intro hpend j hj
          rw [hSstat] at hpend
          rw [hScreated] at hj
          rw [hSstat]
          exact hc2fam hpend j (le_trans (Nat.le_max_left _ _) hj)
        obtain ⟨i1, i2, i3, i4, i5, i6, i7⟩ :=
          ih ci (p0 ++ [i])
            ((blockNodeOnly p0 st).setNode p0 fun n =>
              { n with created := Nat.max n.created (i + 1) })
            (subShape_child_family hsh hget) hvci
            (by
              rw [hdl]
              intro q2 hq2
              rw [nodeClause_congr4 hSstat (hSframe q2 hq2)]
              exact c1 q2 hq2)
            (by rw [hdl]; exact hSB)
            (FreshUnused_step c3
              (fun q2 hq2 => hSframe q2 (fun he => c8 (he ▸ hq2)))
              (fun q2 => by
                by_cases hq2 : q2 = p0
                · subst hq2
                  exact Or.inr (by rw [hSstat]; exact c8)
                · exact Or.inl (hSframe q2 hq2)))
            (OrderedBlock_step c4
              (fun q2 hq2 => hSframe q2 (fun he => c8 (he ▸ hq2)))
              (fun q2 => by
                by_cases hq2 : q2 = p0
                · subst hq2
                  exact Or.inr (by rw [hSstat]; exact c8)
                · exact Or.inl (hSframe q2 hq2)))
            (fun pre iN hpre => by
              obtain ⟨hpq, hiz⟩ := append_singleton_eq hpre
              subst hpq
              subst hiz
              refine ⟨by rw [hSstat]; exact c8, ?_⟩
              intro hpend k2 cs2 hshf
              rw [hScreated]
              exact Nat.lt_of_lt_of_le (Nat.lt_succ_self iN)
                (Nat.le_max_right _ _))
        have hSevol : ∀ q2, (((blockNodeOnly p0 st).setNode p0 fun n =>
            { n with created := Nat.max n.created (i + 1) }).nodes q2).status
              = (st.nodes q2).status ∨
            ((st.nodes q2).status = .unused ∧
              (((blockNodeOnly p0 st).setNode p0 fun n =>
                { n with created := Nat.max n.created (i + 1) }).nodes
                  q2).status = .pending) := by
          intro q2
          rcases hevolb q2 with he | ⟨hu, he⟩
          · exact Or.inl ((hSstat q2).trans he)
          · exact Or.inr ⟨hu, (hSstat q2).trans he⟩
        refine ⟨i1, i2, i3, ?_, statusEvol_trans hSevol i5, ?_, ?_⟩
        · intro q hq
          rw [i4 q (fun hpre => hq (List.IsPrefix.trans (by simp) hpre))]
          rw [hSframe q (fun he => hq (he ▸ List.prefix_refl p0))]
          exact c5 q (fun he => hq (he ▸ List.prefix_refl p0))
        · intro hus
          rw [i4 p0 hp0out, hSstat]
          exact c7 hus
        · rw [i4 p0 hp0out, hSstat]
          exact c8
      · rw [if_neg hcu]
        obtain ⟨i1, i2, i3, i4, i5, i6, i7⟩ :=
          ih ci (p0 ++ [i]) (blockNodeOnly p0 st)
            (subShape_child_family hsh hget) hvci
            (by rw [hdl]; exact c1)
            (by rw [hdl]; exact c2)
            c3 c4
            (fun pre iN hpre => by
              obtain ⟨hpq, hiz⟩ := append_singleton_eq hpre
              subst hpq
              subst hiz
              refine ⟨c8, ?_⟩
              intro hpend k2 cs2 hshf
              by_contra hlt
              exact hcu (hc2fam hpend iN (by omega)))
        refine ⟨i1, i2, i3, ?_, statusEvol_trans hevolb i5, ?_, ?_⟩
        · intro q hq
          rw [i4 q (fun hpre => hq (List.IsPrefix.trans (by simp) hpre))]
          exact c5 q (fun he => hq (he ▸ List.prefix_refl p0))
        · intro hus
          rw [i4 p0 hp0out]
          exact c7 hus
        · rw [i4 p0 hp0out]
          exact c8

/-- One iteration of the `commit` loop preserves the invariant, never turns
a node back to unused, and leaves the root blocked. -/
theorem flatStep_pres (h : HintT) (p : List Nat) (st st1 : CState)
    (hinv : Inv h st)
    (hval : validPath h p = true)
    (hrun : flatStep h p st = some st1) :
    Inv h st1 ∧
    (∀ q, (st.nodes q).status ≠ .unused → (st1.nodes q).status ≠ .unused) ∧
    (st1.nodes []).status ≠ .unused := by
  obtain ⟨hcl, hfr, hob, hco⟩ := hinv
  obtain ⟨b1, b2, b3, b4, b5, b6, b7⟩ :=
    blockPath_pres p h [] h st (by simp [subShape]) hval
      (fun q _ => hcl q) (nodeClauseB_of_clause (hcl [])) hfr hob
      (fun pre iN hpre => absurd hpre (by simp))
  obtain ⟨f1, f2, f3⟩ := blockPath_commitFrame h p [] st
  have hcoB : CommitOK (blockPath h p [] st) := by
    obtain ⟨k1, k2⟩ := hco
    refine ⟨?_, ?_⟩
    · intro hroot
      rcases b5 [] with he | ⟨hu, he⟩
      · rw [he] at hroot
        rw [f1]
        exact k1 hroot
      · rw [he] at hroot
        exact absurd hroot (by simp)
    · rw [f1, f2, f3]
      exact k2
  have hInvB : Inv h (blockPath h p [] st) := ⟨b1, b2, b3, hcoB⟩
  have hmonoB : ∀ q, (st.nodes q).status ≠ .unused →
      ((blockPath h p [] st).nodes q).status ≠ .unused := by
    intro q hq
    rcases b5 q with he | ⟨hu, he⟩
    · rw [he]
      exact hq
    · rw [he]
      simp
  rw [flatStep] at hrun
  cases hsp : subShape h p with
  | none => rw [hsp] at hrun; dsimp only at hrun; exact absurd hrun (by simp)
  | some hh =>
    rw [hsp] at hrun
    cases hh with
    | capture t cc => dsimp only at hrun; exact absurd hrun (by simp)
    | family k cs => dsimp only at hrun; exact absurd hrun (by simp)
    | leaf s0 =>
      cases s0 with
      | none =>
        dsimp only at hrun
        simp only [Option.some.injEq] at hrun
        subst hrun
        exact ⟨hInvB, hmonoB, b7⟩
      | some s =>
        dsimp only at hrun
        have hIX : InvX h (p.reverse).reverse (blockPath h p [] st) := by
          rw [List.reverse_reverse]
          exact Inv_to_InvX p hInvB
        obtain ⟨r1, r2, r3⟩ :=
          reveal_pres h p.reverse s (blockPath h p [] st) st1 hIX hrun
        refine ⟨r1, ?_, ?_⟩
        · intro q hq
          rcases r3 q with he | he
          · rw [he]
            exact hmonoB q hq
          · exact he
        · rcases r3 [] with he | he
          · rw [he]
            exact b7
          · exact he

/-- The `commit` loop preserves the invariant, never turns a node back to
unused, and cannot reach the end with a used commit cue. -/
theorem flatGo_pres (h : HintT) (steps : List (List Nat)) (st0 st : CState)
    (b : Bool)
    (hinv : Inv h st0)
    (hval : ∀ p ∈ steps, validPath h p = true)
    (hcs0 : st0.commitStatus ≠ .used)
    (hrun : flatGo h steps st0 = some (st, b)) :
    Inv h st ∧
    (b = false → st.commitStatus ≠ .used) ∧
    (∀ q, (st0.nodes q).status ≠ .unused → (st.nodes q).status ≠ .unused) ∧
    (steps ≠ [] → (st.nodes []).status ≠ .unused) := by
  induction steps generalizing st0 with
  | nil =>
    rw [flatGo] at hrun
    simp only [Option.some.injEq, Prod.mk.injEq] at hrun
    obtain ⟨h1, h2⟩ := hrun
    subst h1
    subst h2
    exact ⟨hinv, fun _ => hcs0, fun q hq => hq, fun hne => absurd rfl hne⟩
  | cons p rest ih =>
    rw [flatGo] at hrun
    cases hstep : flatStep h p st0 with
    | none => rw [hstep] at hrun; exact absurd hrun (by simp)
    | some st1 =>
      rw [hstep] at hrun
      dsimp only at hrun
      obtain ⟨hInv1, hmono1, hroot1⟩ :=
        flatStep_pres h p st0 st1 hinv (hval p (by simp)) hstep
      split at hrun
      · rename_i hused
        simp only [Option.some.injEq, Prod.mk.injEq] at hrun
        obtain ⟨h1, h2⟩ := hrun
        subst h1
        subst h2
        exact ⟨hInv1, fun hb => absurd hb (by simp), hmono1, fun _ => hroot1⟩
      · rename_i hnu
        obtain ⟨hI, hC, hM, hR⟩ :=
          ih st1 hInv1 (fun q hq => hval q (by simp [hq])) hnu hrun
        exact ⟨hI, hC, fun q hq => hM q (hmono1 q hq),
          fun _ => hM [] hroot1⟩

mutual
/-- Every path produced by `flatten` is a valid descent to a leaf. -/
theorem leafSteps_valid (c : HintT) (p0 : List Nat)
    (hg : goodShape c = true) :
    ∀ p ∈ leafSteps c p0, ∃ r, p = p0 ++ r ∧ validPath c r = true := by
  intro p hp
  cases c with
  | leaf s =>
    rw [leafSteps] at hp
    simp only [List.mem_singleton] at hp
    exact ⟨[], by simp [hp], by rw [validPath]; simp⟩
  | capture t cc =>
    rw [leafSteps] at hp
    rw [goodShape] at hg
    obtain ⟨r, hpe, hv⟩ := leafSteps_valid cc (p0 ++ [0]) hg p hp
    refine ⟨0 :: r, by simp [hpe], ?_⟩
    rw [validPath]
    exact hv
  | family k cs =>
    rw [leafSteps] at hp
    rw [goodShape] at hg
    simp only [Bool.and_eq_true] at hg
    obtain ⟨m, r, ci, hget, hpe, hv⟩ := kidsSteps_valid cs 0 p0 hg.2 p hp
    refine ⟨(0 + m) :: r, hpe, ?_⟩
    rw [validPath]
    simp only [Nat.zero_add]
    exact validKids_intro cs m r ci hget hv

theorem kidsSteps_valid (cs : List HintT) (i : Nat) (p0 : List Nat)
    (hg : goodKids cs = true) :
    ∀ p ∈ kidsSteps cs i p0,
      ∃ m r ci, cs.get? m = some ci ∧ p = p0 ++ (i + m) :: r ∧
        validPath ci r = true := by
  intro p hp
  cases cs with
  | nil => rw [kidsSteps] at hp; exact absurd hp (by simp)
  | cons c rest =>
    rw [kidsSteps] at hp
    rw [goodKids] at hg
    simp only [Bool.and_eq_true] at hg
    rcases List.mem_append.mp hp with hp1 | hp1
    · obtain ⟨r, hpe, hv⟩ := leafSteps_valid c (p0 ++ [i]) hg.1 p hp1
      exact ⟨0, r, c, rfl, by simp [hpe], hv⟩
    · obtain ⟨m, r, ci, hget, hpe, hv⟩ :=
        kidsSteps_valid rest (i + 1) p0 hg.2 p hp1
      refine ⟨m + 1, r, ci, by simpa using hget, ?_, hv⟩
      rw [hpe]
      have : i + 1 + m = i + (m + 1) := by omega
      rw [this]
end

mutual
/-- A shape every constructor can build flattens to at least one leaf. -/
theorem leafSteps_ne_nil (c : HintT) (p0 : List Nat)
    (hg : goodShape c = true) : leafSteps c p0 ≠ [] := by
  cases c with
  | leaf s => rw [leafSteps]; simp
  | capture t cc =>
    rw [leafSteps]
    rw [goodShape] at hg
    exact leafSteps_ne_nil cc (p0 ++ [0]) hg
  | family k cs =>
    rw [leafSteps]
    rw [goodShape] at hg
    simp only [Bool.and_eq_true] at hg
    refine kidsSteps_ne_nil cs 0 p0 hg.2 ?_
    intro he
    rw [he] at hg
    simp at hg

theorem kidsSteps_ne_nil (cs : List HintT) (i : Nat) (p0 : List Nat)
    (hg : goodKids cs = true) (hne : cs ≠ []) : kidsSteps cs i p0 ≠ [] := by
  cases cs with
  | nil => exact absurd rfl hne
  | cons c rest =>
    rw [kidsSteps]
    rw [goodKids] at hg
    simp only [Bool.and_eq_true] at hg
    intro he
    rcases List.append_eq_nil.mp he with ⟨h1, -⟩
    exact leafSteps_ne_nil c (p0 ++ [i]) hg.1 h1
end

/-- The state at the start of `commit` satisfies the invariant. -/
theorem Inv_initial (h : HintT) : Inv h initialCState := by
  refine ⟨?_, ?_, ?_, ?_, ?_⟩
  · intro q
    exact nodeClause_not_pending (by simp [initialCState, NodeSt.init])
  · intro q _
    rfl
  · intro q i _
    rfl
  · intro h2
    simp [initialCState, NodeSt.init] at h2
  · exact Or.inl ⟨rfl, rfl, rfl⟩

/-- When `commit` returns its rollback closure, the final state satisfies the
invariant, the commit cue is still pending with its child slot set, no effect
has fired, and the root event is blocked. -/
theorem commitRun_rollback_inv (h : HintT) (st : CState)
    (hg : goodShape h = true)
    (hres : commitRun h = .rollbackReturned st) :
    Inv h st ∧ st.commitStatus = .pending ∧ st.effects = [] ∧
    st.commitEventChild = true ∧ (st.nodes []).status = .pending := by
  unfold commitRun at hres
  cases hrun : flatGo h (leafSteps h []) initialCState with
  | none => rw [hrun] at hres; simp at hres
  | some pair =>
    obtain ⟨st2, b⟩ := pair
    rw [hrun] at hres
    cases b with
    | true => simp at hres
    | false =>
      simp only [CommitResult.rollbackReturned.injEq] at hres
      subst hres
      have hvals : ∀ p ∈ leafSteps h [], validPath h p = true := by
        intro p hp
        obtain ⟨r, hpe, hv⟩ := leafSteps_valid h [] hg p hp
        rw [hpe]
        simpa using hv
      obtain ⟨hI, hC, hM, hR⟩ :=
        flatGo_pres h (leafSteps h []) initialCState st2 false
          (Inv_initial h) hvals (by rw [initialCState]; simp) hrun
      have hcsne : st2.commitStatus ≠ .used := hC rfl
      have hcs : st2.commitStatus = .pending ∧ st2.effects = [] ∧
          st2.commitEventChild = true := by
        rcases hI.2.2.2.2 with hok | ⟨hused, -⟩
        · exact hok
        · exact absurd hused hcsne
      have hrootnu : (st2.nodes []).status ≠ .unused :=
        hR (leafSteps_ne_nil h [] hg)
      have hrootne : (st2.nodes []).status ≠ .used := by
        intro hru
        exact hcsne (hI.2.2.2.1 hru)
      refine ⟨hI, hcs.1, hcs.2.1, hcs.2.2, ?_⟩
      cases hstat : (st2.nodes []).status with
      | unused => exact absurd hstat hrootnu
      | pending => rfl
      | used => exact absurd hstat hrootne

/-- Once the commit cue is no longer pending, no revelation can fire the
effect or touch the commit cue again: the `CommitEvent` guard rejects the
propagation, and recording or bubbling below never reaches the effect. -/
theorem reveal_effects_frozen (H : HintT) (rp : List Nat) (s : Signal)
    (st st2 : CState) (hcs : st.commitStatus ≠ .pending)
    (hrun : reveal H rp s st = some st2) :
    st2.effects = st.effects ∧ st2.commitStatus = st.commitStatus := by
  induction rp generalizing s st st2 with
  | nil =>
    rw [reveal] at hrun
    simp only [List.reverse_nil, subShape] at hrun
    cases hu : unblockNode true H [] st with
    | none => rw [hu] at hrun; exact absurd hrun (by simp)
    | some st1 =>
      rw [hu] at hrun
      obtain ⟨f1, f2, f3⟩ := unblockNode_commitFrame true H [] st st1 hu
      dsimp only at hrun
      split at hrun
      · exact absurd hrun (by simp)
      · split at hrun
        · exact absurd hrun (by simp)
        · rename_i hcc hcs2
          rw [f1] at hcs2
          exact absurd (not_not.mp hcs2) hcs
  | cons i rest ih =>
    rw [reveal] at hrun
    simp only [List.reverse_cons] at hrun
    cases hshp : subShape H (rest.reverse ++ [i]) with
    | none => rw [hshp] at hrun; exact absurd hrun (by simp)
    | some cp =>
      rw [hshp] at hrun
      dsimp only at hrun
      cases hu : unblockNode true cp (rest.reverse ++ [i]) st with
      | none => rw [hu] at hrun; exact absurd hrun (by simp)
      | some st1 =>
        rw [hu] at hrun
        dsimp only at hrun
        obtain ⟨f1, f2, f3⟩ :=
          unblockNode_commitFrame true cp (rest.reverse ++ [i]) st st1 hu
        have hcs1 : st1.commitStatus ≠ .pending := by
          rw [f1]
          exact hcs
        cases hshq : subShape H rest.reverse with
        | none => rw [hshq] at hrun; exact absurd hrun (by simp)
        | some cq =>
          rw [hshq] at hrun
          cases cq with
          | leaf s2 =>
            dsimp only at hrun
            exact absurd hrun (by simp)
          | capture trap c2 =>
            dsimp only at hrun
            split at hrun
            · exact absurd hrun (by simp)
            · split at hrun
              · exact absurd hrun (by simp)
              · obtain ⟨g1, g2⟩ := ih (trap s) st1 st2 hcs1 hrun
                exact ⟨g1.trans f3, g2.trans f1⟩
          | family k2 cs2 =>
            dsimp only at hrun
            split at hrun
            · exact absurd hrun (by simp)
            · split at hrun
              · exact absurd hrun (by simp)
              · cases k2 with
                | raceF =>
                  dsimp only at hrun
                  obtain ⟨g1, g2⟩ := ih s st1 st2 hcs1 hrun
                  exact ⟨g1.trans f3, g2.trans f1⟩
                | allF =>
                  dsimp only at hrun
                  cases s with
                  | blooper e =>
                    dsimp only at hrun
                    obtain ⟨g1, g2⟩ := ih _ st1 st2 hcs1 hrun
                    exact ⟨g1.trans f3, g2.trans f1⟩
                  | prompt v =>
                    dsimp only at hrun
                    split at hrun
                    · obtain ⟨g1, g2⟩ := ih _ _ st2 (by
                        rw [CState.commitStatus_setNode]
                        exact hcs1) hrun
                      constructor
                      · rw [g1, CState.effects_setNode]
                        exact f3
                      · rw [g2, CState.commitStatus_setNode]
                        exact f1
                    · simp only [Option.some.injEq] at hrun
                      subst hrun
                      constructor
                      · rw [CState.effects_setNode]
                        exact f3
                      · rw [CState.commitStatus_setNode]
                        exact f1
                | anyF =>
                  dsimp only at hrun
                  cases s with
                  | prompt v =>
                    dsimp only at hrun
                    obtain ⟨g1, g2⟩ := ih _ st1 st2 hcs1 hrun
                    exact ⟨g1.trans f3, g2.trans f1⟩
                  | blooper e =>
                    dsimp only at hrun
                    split at hrun
                    · obtain ⟨g1, g2⟩ := ih _ _ st2 (by
                        rw [CState.commitStatus_setNode]
                        exact hcs1) hrun
                      constructor
                      · rw [g1, CState.effects_setNode]
                        exact f3
                      · rw [g2, CState.commitStatus_setNode]
                        exact f1
                    · simp only [Option.some.injEq] at hrun
                      subst hrun
                      constructor
                      · rw [CState.effects_setNode]
                        exact f3
                      · rw [CState.commitStatus_setNode]
                        exact f1
                | settleF =>
                  dsimp only at hrun
                  split at hrun
                  · obtain ⟨g1, g2⟩ := ih _ _ st2 (by
                      rw [CState.commitStatus_setNode]
                      exact hcs1) hrun
                    constructor
                    · rw [g1, CState.effects_setNode]
                      exact f3
                    · rw [g2, CState.commitStatus_setNode]
                      exact f1
                  · simp only [Option.some.injEq] at hrun
                    subst hrun
                    constructor
                    · rw [CState.effects_setNode]
                      exact f3
                    · rw [CState.commitStatus_setNode]
                      exact f1

/-- C1 (amended): for every `commit(hint, effect)` on a constructible hint
tree that returns a rollback closure, the effect has not fired; invoking the
rollback cancels the Commit and exactly those descendants that are still
pending and reachable from the Commit through pending events — running each
such leaf's `end(false, cue)` exactly once and leaving every node outside
the cascade untouched — and afterwards invoking the rollback again is a
no-op and no revelation can ever fire the effect, so at most one of the
effect and the rollback is observable. -/
theorem commit_rollback_cancel (h : HintT) (st : CState)
    (hg : goodShape h = true)
    (hres : commitRun h = .rollbackReturned st) :
    st.effects = [] ∧
    ∃ st', cancelRun h st = some st' ∧
      st'.commitStatus = .used ∧
      st'.effects = [] ∧
      (∀ q, q ∈ reachPend h [] st → (st'.nodes q).status = .used) ∧
      (∀ q s0, q ∈ reachPend h [] st → subShape h q = some (.leaf s0) →
        (st'.nodes q).endFalse = 1) ∧
      (∀ q, q ∉ reachPend h [] st → st'.nodes q = st.nodes q) ∧
      cancelRun h st' = some st' ∧
      (∀ rp s2 st2, reveal h rp s2 st' = some st2 →
        st2.effects = [] ∧ st2.commitStatus = .used) := by
  obtain ⟨⟨hcl, hfr, hob, hco⟩, hcp, hef, hcc, hroot⟩ :=
    commitRun_rollback_inv h st hg hres
  obtain ⟨st', hrun, hused, hleaf, hframe⟩ :=
    unblockNode_false_spec h [] h
      { st with commitStatus := .used, commitEventChild := false }
      (by simp [subShape])
      (fun q _ => hcl q)
      hroot
  have hreach : reachPend h []
      { st with commitStatus := .used, commitEventChild := false }
        = reachPend h [] st :=
    reachPend_congr h [] _ st (fun r _ => rfl)
  obtain ⟨f1, f2, f3⟩ :=
    unblockNode_commitFrame false h []
      { st with commitStatus := .used, commitEventChild := false } st' hrun
  have hcanc : cancelRun h st = some st' := by
    rw [cancelRun, if_neg (by simp [hcp]), if_neg (by simp [hcc])]
    exact hrun
  have hcs' : st'.commitStatus = .used := f1.trans rfl
  have hef' : st'.effects = [] := f3.trans hef
  refine ⟨hef, st', hcanc, hcs', hef', ?_, ?_, ?_, ?_, ?_⟩
  · intro q hq
    exact hused q (by rw [hreach]; exact hq)
  · intro q s0 hq hq0
    have h1 := hleaf q (by rw [hreach]; exact hq) s0 hq0
    have hpend := reachPend_pending h [] st q hq
    have hcl0 := hcl q
    rw [nodeClause, hq0] at hcl0
    dsimp only at hcl0
    have h0 : (st.nodes q).endFalse = 0 := hcl0 hpend
    rw [h1]
    show (st.nodes q).endFalse + 1 = 1
    rw [h0]
  · intro q hq
    exact hframe q (by rw [hreach]; exact hq)
  · rw [cancelRun, if_pos (by rw [hcs']; simp)]
  · intro rp s2 st2 hr2
    obtain ⟨g1, g2⟩ := reveal_effects_frozen h rp s2 st' st2
      (by rw [hcs']; simp) hr2
    exact ⟨g1.trans hef', g2.trans hcs'⟩

/-- Witness for `commit_rollback_cancel` at `race([pendingLeaf,
pendingLeaf])`, whose commit blocks both leaves and returns a rollback. -/
theorem commit_rollback_cancel_witness :
    stC1w.effects = [] ∧
    ∃ st', cancelRun exC1w stC1w = some st' ∧
      st'.commitStatus = .used ∧
      st'.effects = [] ∧
      (∀ q, q ∈ reachPend exC1w [] stC1w → (st'.nodes q).status = .used) ∧
      (∀ q s0, q ∈ reachPend exC1w [] stC1w →
        subShape exC1w q = some (.leaf s0) → (st'.nodes q).endFalse = 1) ∧
      (∀ q, q ∉ reachPend exC1w [] stC1w → st'.nodes q = stC1w.nodes q) ∧
      cancelRun exC1w st' = some st' ∧
      (∀ rp s2 st2, reveal exC1w rp s2 st' = some st2 →
        st2.effects = [] ∧ st2.commitStatus = .used) :=
  commit_rollback_cancel exC1w stC1w rfl rfl

end Dixlib
